import Mathlib

/-!
Verification development for the in-memory hierarchical FUSE file system
(`hw2&3/hierarchicalFS.py`, the byte-string variant, and
`hw2&3/hierarchicalBlockFS.py`, the 512-byte-chunked variant).

Byte strings are modelled as `List Nat`; the chunked content of the block
variant as `List (List Nat)` (the list of chunk strings).  Python 2 integer
division (`/` on ints) is floor division, matching `Nat` division here.
Python exceptions (`IndexError`, `KeyError`, `TypeError`, `FuseOSError`)
are modelled with `Option`/`Except`.
-/

/-- Global block size of the block variant (`BLOCKSIZE = 512`). -/
def BLOCKSIZE : Nat := 512

/-! ## Pure content operations, byte-string variant (`hierarchicalFS.py`) -/

/-- Content returned by `Memory.read` of the byte-string variant:
`d[offset:offset + size]` on the logical buffer. -/
def hfsRead (buf : List Nat) (size offset : Nat) : List Nat :=
  (buf.drop offset).take size

/-- New buffer produced by `Memory.write` of the byte-string variant:
`d[d1] = d[d1][:offset] + data`.  Note the tail of the old buffer past
`offset` is discarded. -/
def hfsWrite (buf data : List Nat) (offset : Nat) : List Nat :=
  buf.take offset ++ data

/-- Effect of `Memory.truncate` of the byte-string variant on the pair
(content, st_size).  The source does `d = self.traverse(path, True);
d = d[:length]`, which rebinds a local variable and never writes the
sliced value back into `self.data`, so the stored content is unchanged;
only `st_size` is set to `length`. -/
def hfsTruncate (buf : List Nat) (length : Nat) : List Nat × Nat :=
  (buf, length)

/-! ## Pure content operations, block variant (`hierarchicalBlockFS.py`) -/

/-- Logical content of a chunk list: concatenation of all chunks. -/
def blockConcat (d : List (List Nat)) : List Nat := d.flatten

/-- Chunking loops of `Memory.write` (block variant): `n` full blocks
`s[i*BLOCKSIZE:(i+1)*BLOCKSIZE]` followed by the remainder
`s[n*BLOCKSIZE:]` (possibly empty). -/
def chunkify (s : List Nat) (n : Nat) : List (List Nat) :=
  ((List.range n).map (fun i => (s.drop (i * BLOCKSIZE)).take BLOCKSIZE)) ++
    [s.drop (n * BLOCKSIZE)]

/-- The block-deletion loop of `Memory.truncate` (block variant):
`i = offset_block + 1; while (i < len(d)): del d[i]; i = i + 1`.
Deleting at index `i` shifts the suffix left while `i` still advances,
so the loop removes every other remaining element; the model keeps that
behavior exactly. -/
def delLoop (d : List (List Nat)) (i : Nat) : List (List Nat) :=
  if h : i < d.length then delLoop (d.eraseIdx i) (i + 1) else d
termination_by d.length - i
decreasing_by
  simp [List.length_eraseIdx, h]
  omega

/-- The `Memory.read` of the block variant.  `none` models an uncaught
`IndexError` from a chunk-list index out of range.  The accumulation
loops over whole in-range chunks are rendered with `take`/`drop`/`join`;
every individual `d[...]` subscript that can be out of range is rendered
with `List.get?`. -/
def blockRead (d : List (List Nat)) (size offset : Nat) : Option (List Nat) :=
  let ob := offset / BLOCKSIZE
  let rem := offset % BLOCKSIZE
  if size ≤ BLOCKSIZE - rem then
    -- condition1: read one block: d[offset_block][reminder_len:reminder_len+size]
    (d.get? ob).map (fun c => (c.drop rem).take size)
  else if size ≤ 2 * BLOCKSIZE - rem then
    -- condition2: read two blocks
    if ob + 1 > d.length then
      (d.get? ob).map (fun c => c.drop rem)
    else do
      let c0 ← d.get? ob
      let c1 ← d.get? (ob + 1)
      pure (c0.drop rem ++ c1.take (size - (BLOCKSIZE - rem)))
  else do
    -- condition3: read more than two blocks
    let c0 ← d.get? ob
    let first := c0.drop rem
    let fbn := (size - (BLOCKSIZE - rem)) / BLOCKSIZE
    if ob + fbn + 1 > d.length then
      pure (first ++ (d.drop (ob + 1)).flatten)
    else do
      let clast ← d.get? (ob + fbn + 1)
      pure (first ++ ((d.drop (ob + 1)).take fbn).flatten ++
        clast.take (size - fbn * BLOCKSIZE - (BLOCKSIZE - rem)))

/-- The `Memory.truncate` of the block variant, returning the new chunk
list and the new `st_size`.  `none` models an uncaught `IndexError`:
the `data_len` loop ends with `d[i]` on an empty list, and the
last-block update `d[offset_block] = ...` can index out of range.
Note the inverted shrink condition of the source: `if (length < data_len):
length = 0` leaves the chunks untouched and reports size `0`. -/
def blockTruncate (d : List (List Nat)) (length : Nat) :
    Option (List (List Nat) × Nat) :=
  match d.getLast? with
  | none => none
  | some last =>
    let dataLen := BLOCKSIZE * (d.length - 1) + last.length
    if length < dataLen then
      some (d, 0)
    else
      let ob := length / BLOCKSIZE
      let rem := length % BLOCKSIZE
      match d.get? ob with
      | none => none
      | some c => some (delLoop (d.set ob (c.take rem)) (ob + 1), length)

/-- The `Memory.write` of the block variant, returning the new chunk
list, the new `st_size`, and the returned byte count.  `none` models an
uncaught `IndexError` (`data_blocks[i]` or `data_blocks[offset_block]`
out of range).  Both the empty-file branch (which ignores `offset`
entirely) and the splice branch (whose resumed loop re-appends
`data_blocks[offset_block]` and everything after it, duplicating data)
are modelled exactly as written. -/
def blockWrite (d : List (List Nat)) (data : List Nat) (offset : Nat) :
    Option (List (List Nat) × Nat × Nat) :=
  if d.length = 0 then
    some (chunkify data (data.length / BLOCKSIZE), data.length, data.length)
  else
    let ob := offset / BLOCKSIZE
    let rem := offset % BLOCKSIZE
    match d.get? ob with
    | none => none
    | some c =>
      let dataStr :=
        if c.length < rem then
          (d.take ob).flatten ++ c ++ data
        else
          (d.take ob).flatten ++ c.take rem ++ data ++ c.drop rem ++
            (d.drop ob).flatten
      some (chunkify dataStr (dataStr.length / BLOCKSIZE), dataStr.length,
        data.length)

/-! ## Specified content semantics (§4.2 of the specification) -/

/-- Modelled from the spec: `read(offset, size)` returns the sub-range
`[offset, offset + size)` of the logical buffer clipped to `[0, total)`,
empty when `offset >= total`. -/
def specRead (buf : List Nat) (size offset : Nat) : List Nat :=
  (buf.drop offset).take size

/-- Modelled from the spec: `write(offset, data)` splices `data` over the
logical buffer, `buffer[0:offset] + data + buffer[offset+len(data):]`
when `offset <= len(buffer)`, zero-filling the gap when
`offset > len(buffer)`. -/
def specWrite (buf data : List Nat) (offset : Nat) : List Nat :=
  if offset ≤ buf.length then
    buf.take offset ++ data ++ buf.drop (offset + data.length)
  else
    buf ++ List.replicate (offset - buf.length) 0 ++ data

/-- Modelled from the spec: `truncate(length)` keeps the first `length`
bytes when `length <= len(buffer)` and zero-extends to `length` bytes
otherwise. -/
def specTruncate (buf : List Nat) (length : Nat) : List Nat :=
  if length ≤ buf.length then buf.take length
  else buf ++ List.replicate (length - buf.length) 0

/-! ## Claims C1 - C5: content semantics of the two variants -/

/-- C1: the claim states `truncate(path, length)` leaves the content equal
to the first `length` bytes (or the zero-extension) and sets the size to
`length`.  The code diverges on the shrink case: for a file holding the
two bytes `[1, 2]`, truncating to length `1` leaves the block variant's
content untouched and reports size `0` (the inverted condition
`if (length < data_len): length = 0`), while the byte-string variant also
leaves the content untouched (its slice is never stored back) and merely
reports size `1`; the specified result is content `[1]` with size `1`. -/
theorem truncate_shrink_code_bug :
    blockTruncate [[1, 2]] 1 = some ([[1, 2]], 0)
      ∧ hfsTruncate [1, 2] 1 = ([1, 2], 1)
      ∧ specTruncate [1, 2] 1 = [1] :=
  ⟨rfl, rfl, rfl⟩

/-- C2: the claim states `write(path, data, offset)` splices `data` over
the buffer.  Writing the byte `[9]` at offset `1` into a file holding
`[1, 2, 3, 4]` should give `[1, 9, 3, 4]`; the byte-string variant
discards the tail (`d[d1][:offset] + data` gives `[1, 9]`), and the block
variant inserts instead of overwriting and then re-appends the block it
already copied (its resumed loop restarts at `i = offset_block`),
producing `[1, 9, 2, 3, 4, 1, 2, 3, 4]` with size `9`. -/
theorem write_splice_code_bug :
    hfsWrite [1, 2, 3, 4] [9] 1 = [1, 9]
      ∧ blockWrite [[1, 2, 3, 4]] [9] 1 =
          some ([[1, 9, 2, 3, 4, 1, 2, 3, 4]], 9, 1)
      ∧ specWrite [1, 2, 3, 4] [9] 1 = [1, 9, 3, 4] :=
  ⟨rfl, rfl, rfl⟩

set_option maxRecDepth 100000 in
/-- C3: the claim states `read(path, size, offset)` returns the sub-range
clipped to the content, empty when `offset >= total`, and that the
chunk-index implementation behaves identically to slicing the
concatenated buffer.  The byte-string variant does slice the buffer, but
the block variant raises uncaught `IndexError`s: on a freshly created
empty file (chunk list `[]`, so `total = 0`) reading one byte at offset
`0` indexes `d[0]` out of range, and on a 600-byte file (chunks of 512
and 88 bytes) reading 500 bytes at offset 562 falls into the two-block
branch whose guard `offset_block + 1 > len(d)` lets
`d[offset_block + 1] = d[2]` be indexed out of range, instead of
returning the 38 available bytes. -/
theorem read_equivalence_code_bug :
    (∀ buf size offset, hfsRead buf size offset = specRead buf size offset)
      ∧ blockRead [] 1 0 = none
      ∧ blockRead [List.replicate 512 7, List.replicate 88 8] 500 562 = none
      ∧ specRead (blockConcat [List.replicate 512 7, List.replicate 88 8])
          500 562 = List.replicate 38 8 :=
  ⟨fun _ _ _ => rfl, rfl, rfl, rfl⟩

/-- C4: the claim states that after every mutating operation a file's
reported `st_size` equals the byte length of its stored logical content.
Truncate breaks it in both variants: for a file holding the single byte
`[5]`, truncating to `0` leaves the block variant's chunk content at
logical length `1` while reporting size `0`, and for a file holding
`[1, 2]` truncating to `1` leaves the byte-string variant's content at
length `2` while reporting size `1`. -/
theorem size_invariant_code_bug :
    (blockTruncate [[5]] 0).map
        (fun r => ((blockConcat r.1).length, r.2)) = some (1, 0)
      ∧ (hfsTruncate [1, 2] 1).1.length = 2
      ∧ (hfsTruncate [1, 2] 1).2 = 1 :=
  ⟨rfl, rfl, rfl⟩

/-- C5: the claim states `write(path, d, o)` followed by
`read(path, len(d), o)` returns exactly `d`, in particular on a freshly
created empty file.  Writing `[7, 8]` at offset `1` into an empty file
and reading two bytes back at offset `1` returns `[8]` in the
byte-string variant (the gap is never zero-filled: the buffer becomes
`[7, 8]` at offset `0`), and `[8]` in the block variant as well (its
empty-file branch ignores the offset entirely), not `[7, 8]`. -/
theorem roundtrip_code_bug :
    hfsRead (hfsWrite [] [7, 8] 1) 2 1 = [8]
      ∧ (blockWrite [] [7, 8] 1).map (fun r => blockRead r.1 2 1) =
          some (some [8])
      ∧ ([8] : List Nat) ≠ [7, 8] :=
  ⟨rfl, rfl, by decide⟩

/-! ## Namespace state machine (`class Memory`)

The namespace code (`__init__`, `traverse`, `traverseparent`, `chmod`,
`chown`, `create`, `getattr`, `mkdir`, `rmdir`, `unlink`, `rename`,
`read`, `write`, `truncate`) is modelled from `hierarchicalFS.py`; it is
textually identical in `hierarchicalBlockFS.py` except for the content
arithmetic already modelled above and the content default (`list`
instead of `bytes`).  Python strings are modelled as `List Char`,
Python dicts as insertion-ordered association lists, the wall clock
`time()` as an explicit `now` argument, and exceptions as `Except`
results paired with the state at the moment the exception escapes. -/

/-- A Python string (paths, component names). -/
abbrev Name := List Char

/-- Python `path.split('/')`. -/
def splitSlash : Name → List Name
  | [] => [[]]
  | c :: rest =>
    if c = '/' then [] :: splitSlash rest
    else
      match splitSlash rest with
      | [] => [[c]]
      | p :: ps => (c :: p) :: ps

/-- Index of the last `'/'` in a string, Python `path.rfind('/')`
(`none` for `-1`). -/
def lastSlashIdx : Name → Option Nat
  | [] => none
  | c :: rest =>
    match lastSlashIdx rest with
    | some i => some (i + 1)
    | none => if c = '/' then some 0 else none

/-- The split performed by `traverseparent`:
`target = path[path.rfind('/')+1:]`, `path = path[:path.rfind('/')]`.
When the path holds no slash, `rfind` returns `-1`, so the parent is
`path[:-1]` and the target the whole path. -/
def parentTarget (p : Name) : Name × Name :=
  match lastSlashIdx p with
  | some i => (p.take i, p.drop (i + 1))
  | none => (p.dropLast, p)

/-- The metadata keys a node dict can hold (everything except `files`).
Keys that are absent on some nodes (`st_size` is missing on the root,
`st_uid`/`st_gid` appear only after `chown`, `attrs` only after
`setxattr`) are `Option`-valued. -/
structure Meta where
  st_mode : Nat
  st_nlink : Int
  st_size : Option Nat
  st_ctime : Nat
  st_mtime : Nat
  st_atime : Nat
  st_uid : Option Nat
  st_gid : Option Nat
  attrs : Option (List (Name × Name))
deriving Repr, DecidableEq

/-- A namespace node: the metadata dict plus, when the `files` key is
present (directories), the insertion-ordered child map. -/
inductive FNode where
  | mk (meta : Meta) (children : Option (List (Name × FNode)))

/-- Metadata of a node. -/
def FNode.meta : FNode → Meta
  | .mk m _ => m

/-- Child map of a node (`none` when the dict has no `files` key). -/
def FNode.children : FNode → Option (List (Name × FNode))
  | .mk _ c => c

/-- Dict lookup on an association list. -/
def dget {α : Type} : List (Name × α) → Name → Option α
  | [], _ => none
  | (k, v) :: rest, key => if k = key then some v else dget rest key

/-- Dict assignment: replace in place when the key exists, append
otherwise. -/
def dset {α : Type} : List (Name × α) → Name → α → List (Name × α)
  | [], key, v => [(key, v)]
  | (k, w) :: rest, key, v =>
    if k = key then (k, v) :: rest else (k, w) :: dset rest key v

/-- Dict removal of a present key (`pop`/`del` after a successful
lookup). -/
def drm {α : Type} : List (Name × α) → Name → List (Name × α)
  | [], _ => []
  | (k, w) :: rest, key => if k = key then rest else (k, w) :: drm rest key

/-- The exceptions the engine can let escape, and the `FuseOSError`
signals it raises deliberately. -/
inductive Err where
  | keyError
  | typeError
  | fuseError (errno : Nat)
deriving Repr, DecidableEq

/-- POSIX `ENOENT`. -/
def ENOENT : Nat := 2

/-- POSIX `ENOTEMPTY`. -/
def ENOTEMPTY : Nat := 39

/-- Directory bit `S_IFDIR`. -/
def S_IFDIR : Nat := 0o040000

/-- Regular-file bit `S_IFREG`. -/
def S_IFREG : Nat := 0o100000

/-- The mask `0o770000` the source uses to isolate the file-type bits. -/
def MODEMASK : Nat := 0o770000

/-- `Memory.traverse(path)` (namespace walk): empty components are
skipped, every other component requires the current dict to hold a
`files` key with the component present in it; a missing key raises
`KeyError`. -/
def nsWalk (n : FNode) : List Name → Except Err FNode
  | [] => .ok n
  | c :: rest =>
    if c = [] then nsWalk n rest
    else
      match n with
      | .mk _ none => .error .keyError
      | .mk _ (some cs) =>
        match dget cs c with
        | none => .error .keyError
        | some child => nsWalk child rest

/-- Walk to a node and rewrite it in place: the functional rendering of
obtaining a dict reference through `traverse`/`traverseparent` and
mutating it.  The walk raises exactly where `nsWalk` does. -/
def nsUpd (n : FNode) (p : List Name) (f : FNode → Except Err FNode) :
    Except Err FNode :=
  match p with
  | [] => f n
  | c :: rest =>
    if c = [] then nsUpd n rest f
    else
      match n with
      | .mk _ none => .error .keyError
      | .mk m (some cs) =>
        match dget cs c with
        | none => .error .keyError
        | some child =>
          match nsUpd child rest f with
          | .error e => .error e
          | .ok child' => .ok (.mk m (some (dset cs c child')))

/-- A node of `self.data`: either a byte string (file content, symlink
target) or a `defaultdict(bytes)` (directory level). -/
inductive DNode where
  | str (s : List Nat)
  | dd (m : List (Name × DNode))

/-- `Memory.traverse(path, True)`: walk `self.data`.  Looking a missing
component up in a `defaultdict` inserts the default `bytes()` entry (a
side effect kept by the model), and subscripting a string with a string
component raises `TypeError`.  Returns the reached node together with
the store updated by the inserted defaults. -/
def dWalk (n : DNode) : List Name → Except Err DNode × DNode
  | [] => (.ok n, n)
  | c :: rest =>
    if c = [] then dWalk n rest
    else
      match n with
      | .str s => (.error .typeError, .str s)
      | .dd m =>
        match dget m c with
        | some v =>
          match dWalk v rest with
          | (r, v') => (r, .dd (dset m c v'))
        | none =>
          match dWalk (.str []) rest with
          | (r, v') => (r, .dd (dset m c v'))

/-- Walk `self.data` like `dWalk` and apply an action to the reached
node (a dict assignment or `pop` through the obtained reference). -/
def dUpd {α : Type} (n : DNode) (p : List Name)
    (f : DNode → Except Err α × DNode) : Except Err α × DNode :=
  match p with
  | [] => f n
  | c :: rest =>
    if c = [] then dUpd n rest f
    else
      match n with
      | .str s => (.error .typeError, .str s)
      | .dd m =>
        match dget m c with
        | some v =>
          match dUpd v rest f with
          | (r, v') => (r, .dd (dset m c v'))
        | none =>
          match dUpd (.str []) rest f with
          | (r, v') => (r, .dd (dset m c v'))

/-- The whole engine state: `self.files['/']`, `self.data`, `self.fd`. -/
structure FS where
  root : FNode
  data : DNode
  fd : Nat

/-- The state built by `Memory.__init__` at clock value `now`. -/
def initFS (now : Nat) : FS :=
  { root := .mk
      { st_mode := S_IFDIR ||| 0o755, st_nlink := 2, st_size := none,
        st_ctime := now, st_mtime := now, st_atime := now,
        st_uid := none, st_gid := none, attrs := none } (some [])
    data := .dd []
    fd := 0 }

/-- `Memory.getattr`: the only operation that catches the traversal
`KeyError`, re-raising it as `FuseOSError(ENOENT)`.  Returns the node's
metadata (every key except `files`). -/
def Memory.getattr (s : FS) (path : Name) : Except Err Meta × FS :=
  match nsWalk s.root (splitSlash path) with
  | .error .keyError => (.error (.fuseError ENOENT), s)
  | .error e => (.error e, s)
  | .ok n => (.ok n.meta, s)

/-- `Memory.chmod`: `p['st_mode'] &= 0o770000; p['st_mode'] |= mode`;
returns `0`.  The traversal `KeyError` escapes uncaught. -/
def Memory.chmod (s : FS) (path : Name) (mode : Nat) : Except Err Nat × FS :=
  match nsUpd s.root (splitSlash path)
      (fun n =>
        match n with
        | .mk m cs =>
          .ok (.mk { m with st_mode := (m.st_mode &&& MODEMASK) ||| mode } cs)) with
  | .error e => (.error e, s)
  | .ok r => (.ok 0, { s with root := r })

/-- `Memory.chown`: stores `st_uid` and `st_gid`; the traversal
`KeyError` escapes uncaught. -/
def Memory.chown (s : FS) (path : Name) (uid gid : Nat) :
    Except Err Unit × FS :=
  match nsUpd s.root (splitSlash path)
      (fun n =>
        match n with
        | .mk m cs =>
          .ok (.mk { m with st_uid := some uid, st_gid := some gid } cs)) with
  | .error e => (.error e, s)
  | .ok r => (.ok (), { s with root := r })

/-- Node dict built by `Memory.create`. -/
def newFileNode (mode now : Nat) : FNode :=
  .mk { st_mode := S_IFREG ||| mode, st_nlink := 1, st_size := some 0,
        st_ctime := now, st_mtime := now, st_atime := now,
        st_uid := none, st_gid := none, attrs := none } none

/-- `Memory.create`: inserts a fresh regular-file node under the parent
(`p['files'][tar] = ...`, overwriting any existing entry), increments
`self.fd` and returns it.  A `KeyError` from the parent walk or from a
parent without a `files` key escapes uncaught. -/
def Memory.create (s : FS) (path : Name) (mode now : Nat) :
    Except Err Nat × FS :=
  let pt := parentTarget path
  match nsUpd s.root (splitSlash pt.1)
      (fun n =>
        match n with
        | .mk _ none => .error .keyError
        | .mk m (some cs) =>
          .ok (.mk m (some (dset cs pt.2 (newFileNode mode now))))) with
  | .error e => (.error e, s)
  | .ok r => (.ok (s.fd + 1), { root := r, data := s.data, fd := s.fd + 1 })

/-- Node dict built by `Memory.mkdir`. -/
def newDirNode (mode now : Nat) : FNode :=
  .mk { st_mode := S_IFDIR ||| mode, st_nlink := 2, st_size := some 0,
        st_ctime := now, st_mtime := now, st_atime := now,
        st_uid := none, st_gid := none, attrs := none } (some [])

/-- `Memory.mkdir`: inserts a fresh directory node under the parent and
increments the parent's link count, then creates the matching
`defaultdict` level in `self.data` (`d[d1] = defaultdict(bytes)`).
The namespace phase happens before the data phase, so a `TypeError`
in the data walk leaves the namespace already mutated. -/
def Memory.mkdir (s : FS) (path : Name) (mode now : Nat) :
    Except Err Unit × FS :=
  let pt := parentTarget path
  match nsUpd s.root (splitSlash pt.1)
      (fun n =>
        match n with
        | .mk _ none => .error .keyError
        | .mk m (some cs) =>
          .ok (.mk { m with st_nlink := m.st_nlink + 1 }
            (some (dset cs pt.2 (newDirNode mode now))))) with
  | .error e => (.error e, s)
  | .ok r =>
    match dUpd s.data (splitSlash pt.1)
        (fun dn =>
          match dn with
          | .str s' => (.error .typeError, .str s')
          | .dd m => (.ok (), .dd (dset m pt.2 (.dd [])))) with
    | (.ok _, data') => (.ok (), { root := r, data := data', fd := s.fd })
    | (.error e, data') => (.error e, { root := r, data := data', fd := s.fd })

/-- `Memory.rmdir`: raises `FuseOSError(ENOTEMPTY)` when the target's
child map is non-empty, otherwise pops the target from the parent and
decrements the parent's link count.  `self.data` is never touched.
A missing component, or a target without a `files` key, raises
`KeyError` before any mutation. -/
def Memory.rmdir (s : FS) (path : Name) : Except Err Unit × FS :=
  let pt := parentTarget path
  match nsUpd s.root (splitSlash pt.1)
      (fun n =>
        match n with
        | .mk _ none => .error .keyError
        | .mk m (some cs) =>
          match dget cs pt.2 with
          | none => .error .keyError
          | some (.mk _ none) => .error .keyError
          | some (.mk _ (some ccs)) =>
            if ccs.length > 0 then .error (.fuseError ENOTEMPTY)
            else .ok (.mk { m with st_nlink := m.st_nlink - 1 }
              (some (drm cs pt.2)))) with
  | .error e => (.error e, s)
  | .ok r => (.ok (), { s with root := r })

/-- `Memory.unlink`: pops the target from the parent's child map;
no link-count change, `self.data` never touched (stale content stays). -/
def Memory.unlink (s : FS) (path : Name) : Except Err Unit × FS :=
  let pt := parentTarget path
  match nsUpd s.root (splitSlash pt.1)
      (fun n =>
        match n with
        | .mk _ none => .error .keyError
        | .mk m (some cs) =>
          match dget cs pt.2 with
          | none => .error .keyError
          | some _ => .ok (.mk m (some (drm cs pt.2)))) with
  | .error e => (.error e, s)
  | .ok r => (.ok (), { s with root := r })

/-- `Memory.read` (byte-string variant): traverses `self.data` only
(never the namespace); a path absent from the store silently picks up
inserted `defaultdict` defaults, and slicing a directory level raises
`TypeError`. -/
def Memory.read (s : FS) (path : Name) (size offset : Nat) :
    Except Err (List Nat) × FS :=
  match dWalk s.data (splitSlash path) with
  | (.error e, data') => (.error e, { s with data := data' })
  | (.ok (.dd _), data') => (.error .typeError, { s with data := data' })
  | (.ok (.str content), data') =>
    (.ok (hfsRead content size offset), { s with data := data' })

/-- `Memory.write` (byte-string variant): resolves the namespace node
first (uncaught `KeyError` when absent), then replaces the content with
`d[d1][:offset] + data` (reading `d[d1]` inserts the `defaultdict`
default when the entry is missing), then stores the new content length
into `st_size` and returns `len(data)`. -/
def Memory.write (s : FS) (path : Name) (data : List Nat) (offset : Nat) :
    Except Err Nat × FS :=
  match nsWalk s.root (splitSlash path) with
  | .error e => (.error e, s)
  | .ok _ =>
    let pt := parentTarget path
    match dUpd s.data (splitSlash pt.1)
        (fun dn =>
          match dn with
          | .str s' => (.error .typeError, .str s')
          | .dd m =>
            match dget m pt.2 with
            | some (.dd sub) => (.error .typeError, .dd (dset m pt.2 (.dd sub)))
            | some (.str old) =>
              (.ok (hfsWrite old data offset).length,
                .dd (dset m pt.2 (.str (hfsWrite old data offset))))
            | none =>
              (.ok (hfsWrite [] data offset).length,
                .dd (dset m pt.2 (.str (hfsWrite [] data offset))))) with
    | (.error e, data') => (.error e, { s with data := data' })
    | (.ok newLen, data') =>
      match nsUpd s.root (splitSlash path)
          (fun n =>
            match n with
            | .mk m cs => .ok (.mk { m with st_size := some newLen } cs)) with
      | .ok r => (.ok data.length, { root := r, data := data', fd := s.fd })
      | .error e => (.error e, { s with data := data' })

/-- `Memory.truncate` (byte-string variant): traverses `self.data`
(slicing a directory level raises `TypeError`; the sliced string is
bound to a local variable and never stored back), then traverses the
namespace (uncaught `KeyError` when absent, after the data walk's
insertions) and stores `st_size = length`. -/
def Memory.truncate (s : FS) (path : Name) (length : Nat) :
    Except Err Unit × FS :=
  match dWalk s.data (splitSlash path) with
  | (.error e, data') => (.error e, { s with data := data' })
  | (.ok (.dd _), data') => (.error .typeError, { s with data := data' })
  | (.ok (.str _), data') =>
    match nsUpd s.root (splitSlash path)
        (fun n =>
          match n with
          | .mk m cs => .ok (.mk { m with st_size := some length } cs)) with
    | .ok r => (.ok (), { root := r, data := data', fd := s.fd })
    | .error e => (.error e, { s with data := data' })

/-- `Memory.getxattr`: traverses the namespace (an uncaught `KeyError`
on a missing component); only the inner `attrs[name]` lookup catches
`KeyError`, returning the empty string (`p.get('attrs', {})` yields an
empty dict when the node has no `attrs` key). -/
def Memory.getxattr (s : FS) (path name : Name) : Except Err Name × FS :=
  match nsWalk s.root (splitSlash path) with
  | .error e => (.error e, s)
  | .ok n =>
    match n.meta.attrs with
    | none => (.ok [], s)
    | some al =>
      match dget al name with
      | none => (.ok [], s)
      | some v => (.ok v, s)

/-- `Memory.listxattr`: traverses the namespace (an uncaught `KeyError`
on a missing component) and returns the keys of the node's `attrs`
dict (empty when the key is absent). -/
def Memory.listxattr (s : FS) (path : Name) : Except Err (List Name) × FS :=
  match nsWalk s.root (splitSlash path) with
  | .error e => (.error e, s)
  | .ok n =>
    match n.meta.attrs with
    | none => (.ok [], s)
    | some al => (.ok (al.map Prod.fst), s)

/-- `Memory.setxattr`: traverses the namespace (an uncaught `KeyError`
on a missing component), then `p.setdefault('attrs', {})[name] =
value`. -/
def Memory.setxattr (s : FS) (path name value : Name) :
    Except Err Unit × FS :=
  match nsUpd s.root (splitSlash path)
      (fun n =>
        match n with
        | .mk m cs =>
          let al :=
            match m.attrs with
            | none => []
            | some al0 => al0
          .ok (.mk { m with attrs := some (dset al name value) } cs)) with
  | .error e => (.error e, s)
  | .ok r => (.ok (), { s with root := r })

/-- `Memory.removexattr`: traverses the namespace (an uncaught
`KeyError` on a missing component); the `del attrs[name]` on the dict
obtained by `p.get('attrs', {})` catches its own `KeyError`, so a
missing attribute (or a node without an `attrs` key, where the `del`
hits a fresh empty dict) is silently ignored. -/
def Memory.removexattr (s : FS) (path name : Name) : Except Err Unit × FS :=
  match nsUpd s.root (splitSlash path)
      (fun n =>
        match n with
        | .mk m cs =>
          match m.attrs with
          | none => .ok (.mk m cs)
          | some al => .ok (.mk { m with attrs := some (drm al name) } cs)) with
  | .error e => (.error e, s)
  | .ok r => (.ok (), { s with root := r })

/-- The `po['st_nlink'] -= 1` step of `Memory.rename`. -/
def decNlink : FNode → Except Err FNode
  | .mk m cs => .ok (.mk { m with st_nlink := m.st_nlink - 1 } cs)

/-- The `pn['st_nlink'] += 1` step of `Memory.rename`. -/
def incNlink : FNode → Except Err FNode
  | .mk m cs => .ok (.mk { m with st_nlink := m.st_nlink + 1 } cs)

/-- The `po['files'].pop(po1)` step of `Memory.rename`, applied at the
old parent (the presence of the popped key has been checked just
before through the re-fetched reference). -/
def popL (k : Name) : FNode → Except Err FNode := fun n =>
  match n with
  | .mk _ none => .error .keyError
  | .mk m (some cs) => .ok (.mk m (some (drm cs k)))

/-- The `pn['files'][pn1] = ...` step of `Memory.rename`, applied at the
new parent. -/
def insL (k : Name) (v : FNode) : FNode → Except Err FNode := fun n =>
  match n with
  | .mk _ none => .error .keyError
  | .mk m (some cs) => .ok (.mk m (some (dset cs k v)))

/-- Namespace phase of `Memory.rename`, in source order: resolve both
parents, read the moved entry's `st_mode`, apply the two link-count
updates when it is a directory, then `pn['files'][pn1] =
po['files'].pop(po1)` (the pop evaluates before the target subscript,
so a new parent without a `files` key raises `KeyError` with the pop
already performed).  Returns the outcome together with the root as
mutated so far.  Mutations through the obtained dict references are
rendered as path-indexed updates; this renders every rename except the
degenerate one that moves a node into its own subtree (where CPython
leaves an unreachable reference cycle while the re-walk here raises
`KeyError`). -/
def renameNs (root : FNode) (old new : Name) : Except Err Unit × FNode :=
  let opt := parentTarget old
  let npt := parentTarget new
  match nsWalk root (splitSlash opt.1) with
  | .error e => (.error e, root)
  | .ok po =>
  match nsWalk root (splitSlash npt.1) with
  | .error e => (.error e, root)
  | .ok _ =>
  match po.children with
  | none => (.error .keyError, root)
  | some pocs =>
  match dget pocs opt.2 with
  | none => (.error .keyError, root)
  | some c =>
  let r1 : Except Err FNode :=
    if c.meta.st_mode &&& MODEMASK = S_IFDIR then
      match nsUpd root (splitSlash opt.1) decNlink with
      | .error e => .error e
      | .ok t => nsUpd t (splitSlash npt.1) incNlink
    else .ok root
  match r1 with
  | .error e => (.error e, root)
  | .ok t1 =>
  match nsWalk t1 (splitSlash opt.1) with
  | .error e => (.error e, t1)
  | .ok po' =>
  match po'.children with
  | none => (.error .keyError, t1)
  | some pocs' =>
  match dget pocs' opt.2 with
  | none => (.error .keyError, t1)
  | some moved =>
  match nsUpd t1 (splitSlash opt.1) (popL opt.2) with
  | .error e => (.error e, t1)
  | .ok t2 =>
  match nsUpd t2 (splitSlash npt.1) (insL npt.2 moved) with
  | .error e => (.error e, t2)
  | .ok t3 => (.ok (), t3)

/-- `Memory.rename`: the namespace phase above, then the data phase
`dn[dn1] = do.pop(do1)` with both `traverseparent(..., True)` walks (and
their `defaultdict` insertions) performed first.  A `KeyError` from the
pop — e.g. a moved file that was created but never written, so it has no
entry in `self.data` — escapes with the namespace already mutated. -/
def Memory.rename (s : FS) (old new : Name) : Except Err Unit × FS :=
  match renameNs s.root old new with
  | (.error e, t) => (.error e, { s with root := t })
  | (.ok _, t3) =>
  let opt := parentTarget old
  let npt := parentTarget new
  match dWalk s.data (splitSlash opt.1) with
  | (.error e, data1) => (.error e, { root := t3, data := data1, fd := s.fd })
  | (.ok _, data1) =>
  match dWalk data1 (splitSlash npt.1) with
  | (.error e, data2) => (.error e, { root := t3, data := data2, fd := s.fd })
  | (.ok _, data2) =>
  match dUpd data2 (splitSlash opt.1)
      (fun dn =>
        match dn with
        | .str s' => (.error .typeError, .str s')
        | .dd m =>
          match dget m opt.2 with
          | none => (.error .keyError, .dd m)
          | some v => (.ok v, .dd (drm m opt.2))) with
  | (.error e, data3) => (.error e, { root := t3, data := data3, fd := s.fd })
  | (.ok dmoved, data3) =>
  match dUpd data3 (splitSlash npt.1)
      (fun dn =>
        match dn with
        | .str s' => (.error .typeError, .str s')
        | .dd m => (.ok (), .dd (dset m npt.2 dmoved))) with
  | (.error e, data4) => (.error e, { root := t3, data := data4, fd := s.fd })
  | (.ok _, data4) => (.ok (), { root := t3, data := data4, fd := s.fd })

/-! ## Association-list and walk lemmas -/

theorem dget_dset_self {α : Type} (l : List (Name × α)) (k : Name) (v : α) :
    dget (dset l k v) k = some v := by
  induction l with
  | nil => simp [dset, dget]
  | cons e rest ih =>
    obtain ⟨k0, w⟩ := e
    by_cases h : k0 = k
    · simp [dset, dget, h]
    · simp [dset, dget, h, ih]

theorem dget_dset_ne {α : Type} (l : List (Name × α)) (k k' : Name) (v : α)
    (h : k' ≠ k) : dget (dset l k v) k' = dget l k' := by
  induction l with
  | nil => simp [dset, dget, Ne.symm h]
  | cons e rest ih =>
    obtain ⟨k0, w⟩ := e
    by_cases h0 : k0 = k
    · subst h0
      simp [dset, dget, Ne.symm h]
    · by_cases h1 : k0 = k'
      · subst h1
        simp [dset, dget, h0]
      · simp [dset, dget, h0, h1, ih]

theorem dget_drm_ne {α : Type} (l : List (Name × α)) (k k' : Name)
    (h : k' ≠ k) : dget (drm l k) k' = dget l k' := by
  induction l with
  | nil => simp [drm, dget]
  | cons e rest ih =>
    obtain ⟨k0, w⟩ := e
    by_cases h0 : k0 = k
    · subst h0
      simp [drm, dget, Ne.symm h]
    · by_cases h1 : k0 = k'
      · subst h1
        simp [drm, dget, h0]
      · simp [drm, dget, h0, h1, ih]

theorem nsUpd_err_of_walk_err (p : List Name) : ∀ (n : FNode) (e : Err)
    (f : FNode → Except Err FNode),
    nsWalk n p = .error e → nsUpd n p f = .error e := by
  induction p with
  | nil => intro n e f hw; simp [nsWalk] at hw
  | cons c rest ih =>
    intro n e f hw
    by_cases hc : c = []
    · simp only [nsWalk, if_pos hc] at hw
      simp only [nsUpd, if_pos hc]
      exact ih n e f hw
    · cases n with
      | mk m cs =>
        cases cs with
        | none =>
          simp only [nsWalk, if_neg hc] at hw
          simp only [nsUpd, if_neg hc]
          exact hw ▸ rfl
        | some l =>
          simp only [nsWalk, if_neg hc] at hw
          simp only [nsUpd, if_neg hc]
          cases hg : dget l c with
          | none =>
            rw [hg] at hw
            exact hw ▸ rfl
          | some child =>
            rw [hg] at hw
            show (match nsUpd child rest f with
              | .error e => .error e
              | .ok child' => .ok (FNode.mk m (some (dset l c child')))) = Except.error e
            rw [ih child e f hw]

theorem nsUpd_err_of_f_err (p : List Name) : ∀ (n t : FNode) (e : Err)
    (f : FNode → Except Err FNode),
    nsWalk n p = .ok t → f t = .error e → nsUpd n p f = .error e := by
  induction p with
  | nil =>
    intro n t e f hw hf
    simp only [nsWalk] at hw
    cases hw
    simpa [nsUpd]
  | cons c rest ih =>
    intro n t e f hw hf
    by_cases hc : c = []
    · simp only [nsWalk, if_pos hc] at hw
      simp only [nsUpd, if_pos hc]
      exact ih n t e f hw hf
    · cases n with
      | mk m cs =>
        cases cs with
        | none =>
          simp only [nsWalk, if_neg hc] at hw
          cases hw
        | some l =>
          simp only [nsWalk, if_neg hc] at hw
          simp only [nsUpd, if_neg hc]
          cases hg : dget l c with
          | none =>
            rw [hg] at hw
            cases hw
          | some child =>
            rw [hg] at hw
            show (match nsUpd child rest f with
              | .error e => .error e
              | .ok child' => .ok (FNode.mk m (some (dset l c child')))) = Except.error e
            rw [ih child t e f hw hf]

theorem nsUpd_ok_of_walk (p : List Name) : ∀ (n t t' : FNode)
    (f : FNode → Except Err FNode),
    nsWalk n p = .ok t → f t = .ok t' →
    ∃ n', nsUpd n p f = .ok n' ∧ nsWalk n' p = .ok t' := by
  induction p with
  | nil =>
    intro n t t' f hw hf
    simp only [nsWalk] at hw
    cases hw
    exact ⟨t', by simpa [nsUpd], by simp [nsWalk]⟩
  | cons c rest ih =>
    intro n t t' f hw hf
    by_cases hc : c = []
    · simp only [nsWalk, if_pos hc] at hw
      obtain ⟨n', h1, h2⟩ := ih n t t' f hw hf
      refine ⟨n', ?_, ?_⟩
      · simp only [nsUpd, if_pos hc]
        exact h1
      · simp only [nsWalk, if_pos hc]
        exact h2
    · cases n with
      | mk m cs =>
        cases cs with
        | none =>
          simp only [nsWalk, if_neg hc] at hw
          cases hw
        | some l =>
          simp only [nsWalk, if_neg hc] at hw
          cases hg : dget l c with
          | none =>
            rw [hg] at hw
            cases hw
          | some child =>
            rw [hg] at hw
            obtain ⟨n', h1, h2⟩ := ih child t t' f hw hf
            refine ⟨.mk m (some (dset l c n')), ?_, ?_⟩
            · simp only [nsUpd, if_neg hc, hg, h1]
            · simp only [nsWalk, if_neg hc, dget_dset_self]
              exact h2

theorem nsUpd_ok_elim (p : List Name) : ∀ (n n' : FNode)
    (f : FNode → Except Err FNode),
    nsUpd n p f = .ok n' →
    ∃ t t', nsWalk n p = .ok t ∧ f t = .ok t' ∧ nsWalk n' p = .ok t' := by
  induction p with
  | nil =>
    intro n n' f hu
    exact ⟨n, n', by simp [nsWalk], hu, by simp [nsWalk]⟩
  | cons c rest ih =>
    intro n n' f hu
    by_cases hc : c = []
    · simp only [nsUpd, if_pos hc] at hu
      obtain ⟨t, t', h1, h2, h3⟩ := ih n n' f hu
      exact ⟨t, t', by simpa only [nsWalk, if_pos hc], h2,
        by simpa only [nsWalk, if_pos hc]⟩
    · cases n with
      | mk m cs =>
        cases cs with
        | none =>
          simp only [nsUpd, if_neg hc] at hu
          cases hu
        | some l =>
          simp only [nsUpd, if_neg hc] at hu
          cases hg : dget l c with
          | none =>
            rw [hg] at hu
            cases hu
          | some child =>
            simp only [hg] at hu
            cases hrec : nsUpd child rest f with
            | error e =>
              rw [hrec] at hu
              cases hu
            | ok child' =>
              rw [hrec] at hu
              cases hu
              obtain ⟨t, t', h1, h2, h3⟩ := ih child child' f hrec
              refine ⟨t, t', ?_, h2, ?_⟩
              · simp only [nsWalk, if_neg hc, hg]
                exact h1
              · simp only [nsWalk, if_neg hc, dget_dset_self]
                exact h3

/-- A value below `2^12` shares no bit with a mask whose low 12 bits are
clear. -/
theorem lowbits_and_zero {mode t : Nat} (h : mode < 2 ^ 12)
    (ht : ∀ i, i < 12 → t.testBit i = false) : mode &&& t = 0 := by
  apply Nat.eq_of_testBit_eq
  intro i
  simp only [Nat.testBit_and, Nat.zero_testBit]
  rcases lt_or_ge i 12 with hi | hi
  · simp [ht i hi]
  · have : mode.testBit i = false := by
      apply Nat.testBit_eq_false_of_lt
      exact lt_of_lt_of_le h (Nat.pow_le_pow_right (by norm_num) hi)
    simp [this]

/-- The `st_mode` written by `chmod` keeps the `S_IFMT` file-type bits
`0o170000` of the old mode when the new mode carries no type bits. -/
theorem chmod_type_bits (a mode : Nat) (h : mode < 0o10000) :
    ((a &&& 0o770000) ||| mode) &&& 0o170000 = a &&& 0o170000 := by
  have hmt : mode &&& 0o170000 = 0 := by
    apply lowbits_and_zero (show mode < 2 ^ 12 by omega)
    intro i hi
    interval_cases i <;> decide
  have hM : (0o770000 : Nat) &&& 0o170000 = 0o170000 := by decide
  rw [Nat.and_distrib_right, Nat.and_assoc, hmt, Nat.or_zero, hM]

/-- The `st_mode` written by `chmod` has exactly the requested
permission bits. -/
theorem chmod_perm_bits (a mode : Nat) (h : mode < 0o10000) :
    ((a &&& 0o770000) ||| mode) &&& 0o7777 = mode := by
  have hmp : mode &&& 0o7777 = mode := by
    have h2 : (0o7777 : Nat) = 2 ^ 12 - 1 := by norm_num
    rw [h2, Nat.and_pow_two_sub_one_eq_mod]
    exact Nat.mod_eq_of_lt (by omega)
  have hM : (0o770000 : Nat) &&& 0o7777 = 0 := by decide
  rw [Nat.and_distrib_right, Nat.and_assoc, hM, Nat.and_zero, Nat.zero_or, hmp]

/-- C10: for every node that resolves and every mode without file-type
bits, `chmod` succeeds with result `0`, leaves `self.data` and `self.fd`
untouched, rewrites the node's `st_mode` to
`(st_mode & 0o770000) | mode` — whose `S_IFMT` type bits equal the old
ones and whose permission bits equal `mode` — and leaves every other
metadata field and the child map of the node unchanged. -/
theorem chmod_frame (s : FS) (path : Name) (mode : Nat) (m : Meta)
    (cso : Option (List (Name × FNode)))
    (hres : nsWalk s.root (splitSlash path) = .ok (.mk m cso))
    (hmode : mode < 0o10000) :
    ∃ root',
      Memory.chmod s path mode = (.ok 0, { s with root := root' }) ∧
      nsWalk root' (splitSlash path) =
        .ok (.mk { m with st_mode := (m.st_mode &&& MODEMASK) ||| mode } cso) ∧
      ((m.st_mode &&& MODEMASK) ||| mode) &&& 0o170000 =
        m.st_mode &&& 0o170000 ∧
      ((m.st_mode &&& MODEMASK) ||| mode) &&& 0o7777 = mode := by
  obtain ⟨n', h1, h2⟩ := nsUpd_ok_of_walk (splitSlash path) s.root (.mk m cso)
    (.mk { m with st_mode := (m.st_mode &&& MODEMASK) ||| mode } cso)
    (fun n =>
      match n with
      | .mk m cs =>
        .ok (.mk { m with st_mode := (m.st_mode &&& MODEMASK) ||| mode } cs))
    hres rfl
  refine ⟨n', ?_, h2, ?_, ?_⟩
  · simp only [Memory.chmod, h1]
  · exact chmod_type_bits m.st_mode mode hmode
  · exact chmod_perm_bits m.st_mode mode hmode

/-- Witness for `chmod_frame`: a freshly created `/f` chmodded to
`0o600`. -/
theorem chmod_frame_witness :
    (Memory.chmod ((Memory.create (initFS 0) ['/', 'f'] 0o644 1).2)
      ['/', 'f'] 0o600).1 = .ok 0 := by
  obtain ⟨r, h1, h2, h3, h4⟩ :=
    chmod_frame ((Memory.create (initFS 0) ['/', 'f'] 0o644 1).2) ['/', 'f']
      0o600
      { st_mode := S_IFREG ||| 0o644, st_nlink := 1, st_size := some 0,
        st_ctime := 1, st_mtime := 1, st_atime := 1, st_uid := none,
        st_gid := none, attrs := none }
      none rfl (by decide)
  rw [h1]

/-- C9: for a resolving directory path, `rmdir` fails with
`FuseOSError(ENOTEMPTY)` exactly when the directory has children; on an
empty directory it removes the entry from the parent's child map,
decrements the parent's link count by exactly one, leaves the parent's
other entries as they were, and leaves `self.data` and `self.fd`
untouched. -/
theorem rmdir_notempty_iff (s : FS) (path : Name) (pm : Meta)
    (pcs : List (Name × FNode)) (cm : Meta) (ccs : List (Name × FNode))
    (hpar : nsWalk s.root (splitSlash (parentTarget path).1) =
      .ok (.mk pm (some pcs)))
    (hchild : dget pcs (parentTarget path).2 = some (.mk cm (some ccs))) :
    (ccs ≠ [] → Memory.rmdir s path = (.error (.fuseError ENOTEMPTY), s)) ∧
    (ccs = [] → ∃ root',
      Memory.rmdir s path = (.ok (), { s with root := root' }) ∧
      nsWalk root' (splitSlash (parentTarget path).1) =
        .ok (.mk { pm with st_nlink := pm.st_nlink - 1 }
          (some (drm pcs (parentTarget path).2))) ∧
      (∀ k, k ≠ (parentTarget path).2 →
        dget (drm pcs (parentTarget path).2) k = dget pcs k)) := by
  constructor
  · intro hne
    have hlen : ccs.length > 0 := List.length_pos.mpr hne
    have herr := nsUpd_err_of_f_err (splitSlash (parentTarget path).1) s.root
      (.mk pm (some pcs)) (.fuseError ENOTEMPTY)
      (fun n =>
        match n with
        | .mk _ none => .error .keyError
        | .mk m (some cs) =>
          match dget cs (parentTarget path).2 with
          | none => .error .keyError
          | some (.mk _ none) => .error .keyError
          | some (.mk _ (some ccs)) =>
            if ccs.length > 0 then .error (.fuseError ENOTEMPTY)
            else .ok (.mk { m with st_nlink := m.st_nlink - 1 }
              (some (drm cs (parentTarget path).2))))
      hpar (by simp only [hchild]; rw [if_pos hlen])
    simp only [Memory.rmdir, herr]
  · intro hnil
    subst hnil
    obtain ⟨root', h1, h2⟩ := nsUpd_ok_of_walk
      (splitSlash (parentTarget path).1) s.root (.mk pm (some pcs))
      (.mk { pm with st_nlink := pm.st_nlink - 1 }
        (some (drm pcs (parentTarget path).2)))
      (fun n =>
        match n with
        | .mk _ none => .error .keyError
        | .mk m (some cs) =>
          match dget cs (parentTarget path).2 with
          | none => .error .keyError
          | some (.mk _ none) => .error .keyError
          | some (.mk _ (some ccs)) =>
            if ccs.length > 0 then .error (.fuseError ENOTEMPTY)
            else .ok (.mk { m with st_nlink := m.st_nlink - 1 }
              (some (drm cs (parentTarget path).2))))
      hpar (by simp only [hchild]; rw [if_neg (by simp)])
    refine ⟨root', ?_, h2, ?_⟩
    · simp only [Memory.rmdir, h1]
    · intro k hk
      exact dget_drm_ne pcs (parentTarget path).2 k hk

/-- Witness for `rmdir_notempty_iff`: `mkdir("/d")` then `rmdir("/d")`
succeeds. -/
theorem rmdir_notempty_iff_witness :
    (Memory.rmdir ((Memory.mkdir (initFS 0) ['/', 'd'] 0o755 2).2)
      ['/', 'd']).1 = .ok () := by
  obtain ⟨h1, h2⟩ := rmdir_notempty_iff
    ((Memory.mkdir (initFS 0) ['/', 'd'] 0o755 2).2) ['/', 'd']
    { st_mode := S_IFDIR ||| 0o755, st_nlink := 3, st_size := none,
      st_ctime := 0, st_mtime := 0, st_atime := 0, st_uid := none,
      st_gid := none, attrs := none }
    [(['d'], newDirNode 0o755 2)]
    { st_mode := S_IFDIR ||| 0o755, st_nlink := 2, st_size := some 0,
      st_ctime := 2, st_mtime := 2, st_atime := 2, st_uid := none,
      st_gid := none, attrs := none }
    [] rfl rfl
  obtain ⟨r, hr, _, _⟩ := h2 rfl
  rw [hr]

/-- A slash-free string splits into itself. -/
theorem splitSlash_no_slash (name : Name) (h : '/' ∉ name) :
    splitSlash name = [name] := by
  induction name with
  | nil => simp [splitSlash]
  | cons c rest ih =>
    have hc : c ≠ '/' := fun he => h (he ▸ List.mem_cons_self c rest)
    have hr : '/' ∉ rest := fun hm => h (List.mem_cons_of_mem c hm)
    simp [splitSlash, hc, ih hr]

/-- Splitting an absolute one-component path. -/
theorem splitSlash_abs (name : Name) (h : '/' ∉ name) :
    splitSlash ('/' :: name) = [[], name] := by
  simp [splitSlash, splitSlash_no_slash name h]

/-- A slash-free string has no last slash. -/
theorem lastSlashIdx_no_slash (name : Name) (h : '/' ∉ name) :
    lastSlashIdx name = none := by
  induction name with
  | nil => rfl
  | cons c rest ih =>
    have hc : c ≠ '/' := fun he => h (he ▸ List.mem_cons_self c rest)
    have hr : '/' ∉ rest := fun hm => h (List.mem_cons_of_mem c hm)
    simp [lastSlashIdx, ih hr, hc]

/-- `traverseparent`'s split of an absolute one-component path. -/
theorem parentTarget_abs (name : Name) (h : '/' ∉ name) :
    parentTarget ('/' :: name) = ([], name) := by
  simp [parentTarget, lastSlashIdx, lastSlashIdx_no_slash name h]

/-- Walking to an absent top-level entry raises `KeyError`. -/
theorem nsWalk_root_missing (rm : Meta) (rcs : List (Name × FNode))
    (name : Name) (hname : name ≠ []) (hmiss : dget rcs name = none) :
    nsWalk (.mk rm (some rcs)) [[], name] = .error .keyError := by
  simp [nsWalk, hname, hmiss]

/-- Updating at an absent top-level entry raises `KeyError`. -/
theorem nsUpd_root_missing (rm : Meta) (rcs : List (Name × FNode))
    (name : Name) (hname : name ≠ []) (hmiss : dget rcs name = none)
    (f : FNode → Except Err FNode) :
    nsUpd (.mk rm (some rcs)) [[], name] f = .error .keyError := by
  simp [nsUpd, hname, hmiss]

/-- Data walk to an absent top-level entry: the `defaultdict` silently
inserts the default empty byte string and the walk succeeds with it. -/
theorem dWalk_root_missing (dm : List (Name × DNode)) (name : Name)
    (hname : name ≠ []) (hmiss : dget dm name = none) :
    dWalk (.dd dm) [[], name] =
      (.ok (.str []), .dd (dset dm name (.str []))) := by
  simp [dWalk, hname, hmiss]

/-- Splitting a two-component relative string. -/
theorem splitSlash_two (m x : Name) (hm : '/' ∉ m) (hx : '/' ∉ x) :
    splitSlash (m ++ '/' :: x) = [m, x] := by
  induction m with
  | nil => simp [splitSlash, splitSlash_no_slash x hx]
  | cons c rest ih =>
    have hc : c ≠ '/' := fun he => hm (he ▸ List.mem_cons_self c rest)
    have hr : '/' ∉ rest := fun hmem => hm (List.mem_cons_of_mem c hmem)
    simp [splitSlash, hc, ih hr]

/-- Splitting an absolute two-component path. -/
theorem splitSlash_abs2 (m x : Name) (hm : '/' ∉ m) (hx : '/' ∉ x) :
    splitSlash ('/' :: m ++ '/' :: x) = [[], m, x] := by
  show splitSlash ('/' :: (m ++ '/' :: x)) = [[], m, x]
  simp [splitSlash, splitSlash_two m x hm hx]

/-- `rfind('/')` on a string whose final component is slash-free finds
the separator before that component. -/
theorem lastSlashIdx_two (m x : Name) (hx : '/' ∉ x) :
    lastSlashIdx (m ++ '/' :: x) = some m.length := by
  induction m with
  | nil => simp [lastSlashIdx, lastSlashIdx_no_slash x hx]
  | cons c rest ih => simp [lastSlashIdx, ih]

/-- `traverseparent`'s split of an absolute two-component path. -/
theorem parentTarget_two (m x : Name) (hx : '/' ∉ x) :
    parentTarget ('/' :: m ++ '/' :: x) = ('/' :: m, x) := by
  have h1 : lastSlashIdx ('/' :: m ++ '/' :: x) = some (m.length + 1) := by
    show lastSlashIdx ('/' :: (m ++ '/' :: x)) = some (m.length + 1)
    simp [lastSlashIdx, lastSlashIdx_two m x hx]
  have h2 : ('/' :: m ++ '/' :: x).take (m.length + 1) = '/' :: m := by
    show ('/' :: (m ++ '/' :: x)).take (m.length + 1) = '/' :: m
    simp [List.take_succ_cons, List.take_left]
  have h3 : ('/' :: m ++ '/' :: x).drop (m.length + 1 + 1) = x := by
    show ('/' :: (m ++ '/' :: x)).drop (m.length + 1 + 1) = x
    rw [List.drop_succ_cons]
    have he : m ++ '/' :: x = (m ++ ['/']) ++ x := by simp
    have hl : (m ++ ['/']).length = m.length + 1 := by simp
    rw [he, ← hl, List.drop_left]
  simp only [parentTarget, h1]
  rw [h2, h3]

/-- Walking a two-component absolute path whose first component is
absent raises `KeyError`. -/
theorem nsWalk_depth2_missing (rm : Meta) (rcs : List (Name × FNode))
    (name name2 : Name) (hname : name ≠ [])
    (hmiss : dget rcs name = none) :
    nsWalk (.mk rm (some rcs)) [[], name, name2] = .error .keyError := by
  simp [nsWalk, hname, hmiss]

/-- Data walk below an absent top-level entry: the `defaultdict` inserts
the default empty byte string, which the walk then subscripts with the
next component — an uncaught `TypeError`, with the default left
behind. -/
theorem dWalk_depth2_missing (dm : List (Name × DNode)) (name name2 : Name)
    (hname : name ≠ []) (hname2 : name2 ≠ [])
    (hmiss : dget dm name = none) :
    dWalk (.dd dm) [[], name, name2] =
      (.error .typeError, .dd (dset dm name (.str []))) := by
  simp [dWalk, hname, hname2, hmiss]

/-- C6 (amended): resolution failures are not uniformly `ENOENT`, and
their shape depends on where the absent component sits.  Only `getattr`
catches the traversal `KeyError`, re-raising it as
`FuseOSError(ENOENT)`.  For a top-level name absent from both stores:
`chmod`, `chown`, `rmdir`, `unlink`, `rename`, `write`, `getxattr`,
`listxattr`, `setxattr` and `removexattr` let the uncaught `KeyError`
escape with the state unchanged; `truncate` lets it escape only after
the data walk has already inserted a `defaultdict` default into the
content store; `read` never consults the namespace at all — it
succeeds, returns the empty byte string, and inserts the default entry;
and `mkdir` of a path directly below the absent name lets the
`KeyError` of its parent walk escape before any mutation.  For a
two-component path whose first component is absent, the data-walking
operations `read` and `truncate` instead raise an uncaught `TypeError`
(the inserted default is a byte string, which the walk then subscripts
with the second component), again leaving the inserted default
behind. -/
theorem resolution_failure_amended (s : FS) (name name2 val : Name)
    (mode now uid gid size offset length : Nat) (dat : List Nat)
    (rm : Meta) (rcs : List (Name × FNode)) (dm : List (Name × DNode))
    (hroot : s.root = .mk rm (some rcs)) (hdata : s.data = .dd dm)
    (hname : name ≠ []) (hslash : '/' ∉ name)
    (hname2 : name2 ≠ []) (hslash2 : '/' ∉ name2)
    (hmiss : dget rcs name = none) (hdmiss : dget dm name = none) :
    Memory.getattr s ('/' :: name) = (.error (.fuseError ENOENT), s) ∧
    Memory.chmod s ('/' :: name) mode = (.error .keyError, s) ∧
    Memory.chown s ('/' :: name) uid gid = (.error .keyError, s) ∧
    Memory.rmdir s ('/' :: name) = (.error .keyError, s) ∧
    Memory.unlink s ('/' :: name) = (.error .keyError, s) ∧
    Memory.rename s ('/' :: name) ('/' :: name) = (.error .keyError, s) ∧
    Memory.write s ('/' :: name) dat offset = (.error .keyError, s) ∧
    Memory.getxattr s ('/' :: name) name2 = (.error .keyError, s) ∧
    Memory.listxattr s ('/' :: name) = (.error .keyError, s) ∧
    Memory.setxattr s ('/' :: name) name2 val = (.error .keyError, s) ∧
    Memory.removexattr s ('/' :: name) name2 = (.error .keyError, s) ∧
    Memory.mkdir s ('/' :: name ++ '/' :: name2) mode now =
      (.error .keyError, s) ∧
    Memory.truncate s ('/' :: name) length =
      (.error .keyError, { s with data := .dd (dset dm name (.str [])) }) ∧
    Memory.read s ('/' :: name) size offset =
      (.ok [], { s with data := .dd (dset dm name (.str [])) }) ∧
    Memory.read s ('/' :: name ++ '/' :: name2) size offset =
      (.error .typeError,
        { s with data := .dd (dset dm name (.str [])) }) ∧
    Memory.truncate s ('/' :: name ++ '/' :: name2) length =
      (.error .typeError,
        { s with data := .dd (dset dm name (.str [])) }) := by
  have hw := nsWalk_root_missing rm rcs name hname hmiss
  have hu := nsUpd_root_missing rm rcs name hname hmiss
  have hd := dWalk_root_missing dm name hname hdmiss
  have hd2 := dWalk_depth2_missing dm name name2 hname hname2 hdmiss
  refine ⟨?_, ?_, ?_, ?_, ?_, ?_, ?_, ?_, ?_, ?_, ?_, ?_, ?_, ?_, ?_, ?_⟩
  · simp only [Memory.getattr, splitSlash_abs name hslash, hroot, hw]
  · simp only [Memory.chmod, splitSlash_abs name hslash, hroot, hu]
  · simp only [Memory.chown, splitSlash_abs name hslash, hroot, hu]
  · simp [Memory.rmdir, parentTarget_abs name hslash, hroot, splitSlash,
      nsUpd, hmiss]
  · simp [Memory.unlink, parentTarget_abs name hslash, hroot, splitSlash,
      nsUpd, hmiss]
  · simp [Memory.rename, renameNs, parentTarget_abs name hslash, hroot,
      splitSlash, nsWalk, FNode.children, hmiss]
    rw [← hroot]
  · simp only [Memory.write, splitSlash_abs name hslash, hroot, hw]
  · simp only [Memory.getxattr, splitSlash_abs name hslash, hroot, hw]
  · simp only [Memory.listxattr, splitSlash_abs name hslash, hroot, hw]
  · simp only [Memory.setxattr, splitSlash_abs name hslash, hroot, hu]
  · simp only [Memory.removexattr, splitSlash_abs name hslash, hroot, hu]
  · simp only [Memory.mkdir, parentTarget_two name name2 hslash2,
      splitSlash_abs name hslash, hroot, hu]
  · simp only [Memory.truncate, splitSlash_abs name hslash, hdata, hd,
      hroot, hu]
  · simp only [Memory.read, splitSlash_abs name hslash, hdata, hd, hfsRead,
      List.drop_nil, List.take_nil]
  · simp only [Memory.read, splitSlash_abs2 name name2 hslash hslash2,
      hdata, hd2]
  · simp only [Memory.truncate, splitSlash_abs2 name name2 hslash hslash2,
      hdata, hd2]

/-- Counterexample to C6 as stated: `chmod` on a missing path does not
fail with the `ENOENT` condition — the `KeyError` escapes untranslated. -/
theorem resolution_failure_counterexample :
    Memory.chmod (initFS 0) ['/', 'n'] 0o644 = (.error .keyError, initFS 0) ∧
    Err.keyError ≠ Err.fuseError ENOENT := by
  exact ⟨rfl, by decide⟩

/-- Witness for `resolution_failure_amended` at the freshly initialized
state and the missing name `n`. -/
theorem resolution_failure_amended_witness :
    Memory.getattr (initFS 0) ['/', 'n'] =
      (.error (.fuseError ENOENT), initFS 0) :=
  (resolution_failure_amended (initFS 0) ['n'] ['x'] [] 0 0 0 0 0 0 0 []
    (initFS 0).root.meta [] [] rfl rfl (by decide) (by decide)
    (by decide) (by decide) rfl rfl).1

/-- C8 (amended): the operations whose only mutation happens through a
single namespace update — `getattr`, `chmod`, `chown`, `create`,
`rmdir`, `unlink` — return the state unchanged whenever they fail.  The
claim does not hold for the remaining operations: `rename` can fail
after its namespace mutation (see the counterexample), and the data
walks of `mkdir`/`read`/`write`/`truncate` insert `defaultdict` defaults
even on failing calls. -/
theorem failed_op_leaves_state (s : FS) (path : Name)
    (mode now uid gid : Nat) :
    (∀ e, (Memory.getattr s path).1 = .error e →
      (Memory.getattr s path).2 = s) ∧
    (∀ e, (Memory.chmod s path mode).1 = .error e →
      (Memory.chmod s path mode).2 = s) ∧
    (∀ e, (Memory.chown s path uid gid).1 = .error e →
      (Memory.chown s path uid gid).2 = s) ∧
    (∀ e, (Memory.create s path mode now).1 = .error e →
      (Memory.create s path mode now).2 = s) ∧
    (∀ e, (Memory.rmdir s path).1 = .error e →
      (Memory.rmdir s path).2 = s) ∧
    (∀ e, (Memory.unlink s path).1 = .error e →
      (Memory.unlink s path).2 = s) := by
  refine ⟨?_, ?_, ?_, ?_, ?_, ?_⟩
  · intro e he
    unfold Memory.getattr at he ⊢
    cases h : nsWalk s.root (splitSlash path) with
    | error e' => cases e' <;> simp [h]
    | ok n => simp [h] at he
  · intro e he
    unfold Memory.chmod at he ⊢
    cases h : nsUpd s.root (splitSlash path)
        (fun n =>
          match n with
          | .mk m cs =>
            .ok (.mk { m with st_mode := (m.st_mode &&& MODEMASK) ||| mode }
              cs)) with
    | error e' => simp [h]
    | ok r => simp [h] at he
  · intro e he
    unfold Memory.chown at he ⊢
    cases h : nsUpd s.root (splitSlash path)
        (fun n =>
          match n with
          | .mk m cs =>
            .ok (.mk { m with st_uid := some uid, st_gid := some gid } cs)) with
    | error e' => simp [h]
    | ok r => simp [h] at he
  · intro e he
    unfold Memory.create at he ⊢
    cases h : nsUpd s.root (splitSlash (parentTarget path).1)
        (fun n =>
          match n with
          | .mk _ none => .error .keyError
          | .mk m (some cs) =>
            .ok (.mk m
              (some (dset cs (parentTarget path).2 (newFileNode mode now))))) with
    | error e' => simp [h]
    | ok r => simp [h] at he
  · intro e he
    unfold Memory.rmdir at he ⊢
    cases h : nsUpd s.root (splitSlash (parentTarget path).1)
        (fun n =>
          match n with
          | .mk _ none => .error .keyError
          | .mk m (some cs) =>
            match dget cs (parentTarget path).2 with
            | none => .error .keyError
            | some (.mk _ none) => .error .keyError
            | some (.mk _ (some ccs)) =>
              if ccs.length > 0 then .error (.fuseError ENOTEMPTY)
              else .ok (.mk { m with st_nlink := m.st_nlink - 1 }
                (some (drm cs (parentTarget path).2)))) with
    | error e' => simp [h]
    | ok r => simp [h] at he
  · intro e he
    unfold Memory.unlink at he ⊢
    cases h : nsUpd s.root (splitSlash (parentTarget path).1)
        (fun n =>
          match n with
          | .mk _ none => .error .keyError
          | .mk m (some cs) =>
            match dget cs (parentTarget path).2 with
            | none => .error .keyError
            | some _ => .ok (.mk m (some (drm cs (parentTarget path).2)))) with
    | error e' => simp [h]
    | ok r => simp [h] at he

/-- Witness for `failed_op_leaves_state`: a failing `chmod` on the fresh
state returns it unchanged. -/
theorem failed_op_leaves_state_witness :
    (Memory.chmod (initFS 0) ['/', 'n'] 0o644).2 = initFS 0 :=
  (failed_op_leaves_state (initFS 0) ['/', 'n'] 0o644 0 0 0).2.1
    Err.keyError rfl

/-- Counterexample to C8 as stated: after `create("/f")` (which never
touches `self.data`), `rename("/f", "/g")` raises `KeyError` from
`self.data.pop('f')` — yet the namespace entry has already moved: the
failed call leaves `/g` resolvable where it was not before. -/
theorem rename_partial_mutation_counterexample :
    (Memory.rename ((Memory.create (initFS 0) ['/', 'f'] 0o644 1).2)
        ['/', 'f'] ['/', 'g']).1 = .error .keyError ∧
    (∃ n, nsWalk (Memory.rename ((Memory.create (initFS 0) ['/', 'f'] 0o644 1).2)
        ['/', 'f'] ['/', 'g']).2.root (splitSlash ['/', 'g']) = .ok n) ∧
    nsWalk ((Memory.create (initFS 0) ['/', 'f'] 0o644 1).2).root
        (splitSlash ['/', 'g']) = .error .keyError := by
  exact ⟨rfl, ⟨_, rfl⟩, rfl⟩

/-! ## The directory link-count invariant (§3) -/

/-- Structural directory test: the node dict has a `files` key. -/
def isDirN (n : FNode) : Bool := n.children.isSome

/-- Number of direct child directories in a child map. -/
def ndirs (cs : List (Name × FNode)) : Nat :=
  (cs.filter (fun e => isDirN e.2)).length

/-- Contribution of one node to a directory count. -/
def dirC (n : FNode) : Nat := if isDirN n then 1 else 0

/-- A predicate holding at every node of the tree: a local condition on
the metadata and child map, plus the same recursively below. -/
inductive TreeAll (L : Meta → Option (List (Name × FNode)) → Prop) :
    FNode → Prop where
  | mk : ∀ m oc, L m oc →
      (∀ cs, oc = some cs → ∀ e ∈ cs, TreeAll L e.2) →
      TreeAll L (.mk m oc)

/-- The invariant of C7: every directory's link count is 2 plus its
number of direct child directories. -/
def LinkInv : FNode → Prop :=
  TreeAll (fun m oc => ∀ cs, oc = some cs →
    m.st_nlink = 2 + (ndirs cs : Int))

/-- Mode/structure agreement: a node has a `files` key exactly when its
`st_mode & 0o770000` equals `S_IFDIR` (the test `rename` uses). -/
def ModeWF : FNode → Prop :=
  TreeAll (fun m oc => oc.isSome ↔ m.st_mode &&& MODEMASK = S_IFDIR)

/-- Duplicate-free child names at every level (Python dicts cannot hold
duplicate keys). -/
def KeysUniq : FNode → Prop :=
  TreeAll (fun _ oc => ∀ cs, oc = some cs → (cs.map Prod.fst).Nodup)

/-! ## Further association-list lemmas -/

theorem dget_mem {α : Type} (l : List (Name × α)) (k : Name) (v : α)
    (h : dget l k = some v) : (k, v) ∈ l := by
  induction l with
  | nil => simp [dget] at h
  | cons e rest ih =>
    obtain ⟨k0, w⟩ := e
    by_cases h0 : k0 = k
    · subst h0
      simp [dget] at h
      simp [h]
    · simp [dget, h0] at h
      simp [ih h]

theorem mem_dset {α : Type} (l : List (Name × α)) (k : Name) (v : α)
    (e : Name × α) (h : e ∈ dset l k v) : e = (k, v) ∨ e ∈ l := by
  induction l with
  | nil => simp [dset] at h; simp [h]
  | cons e0 rest ih =>
    obtain ⟨k0, w⟩ := e0
    by_cases h0 : k0 = k
    · subst h0
      simp [dset] at h
      rcases h with h | h
      · exact Or.inl (by simp [h])
      · exact Or.inr (by simp [h])
    · simp [dset, h0] at h
      rcases h with h | h
      · exact Or.inr (by simp [h])
      · rcases ih h with h1 | h1
        · exact Or.inl h1
        · exact Or.inr (by simp [h1])

theorem mem_drm {α : Type} (l : List (Name × α)) (k : Name)
    (e : Name × α) (h : e ∈ drm l k) : e ∈ l := by
  induction l with
  | nil => simp [drm] at h
  | cons e0 rest ih =>
    obtain ⟨k0, w⟩ := e0
    by_cases h0 : k0 = k
    · subst h0
      simp [drm] at h
      simp [h]
    · simp [drm, h0] at h
      rcases h with h | h
      · simp [h]
      · simp [ih h]

theorem dset_dset_same {α : Type} (l : List (Name × α)) (k : Name)
    (a b : α) : dset (dset l k a) k b = dset l k b := by
  induction l with
  | nil => simp [dset]
  | cons e rest ih =>
    obtain ⟨k0, w⟩ := e
    by_cases h0 : k0 = k
    · subst h0
      simp [dset]
    · simp [dset, h0, ih]

theorem dset_dset_comm {α : Type} (l : List (Name × α)) (p q : Name)
    (a b vp vq : α) (h : p ≠ q) (hp : dget l p = some vp)
    (hq : dget l q = some vq) :
    dset (dset l q b) p a = dset (dset l p a) q b := by
  induction l with
  | nil => simp [dget] at hp
  | cons e rest ih =>
    obtain ⟨k0, w⟩ := e
    by_cases hkq : k0 = q
    · have hkp : k0 ≠ p := by
        rw [hkq]
        exact Ne.symm h
      simp [dset, hkq, hkp, Ne.symm h, h]
    · by_cases hkp : k0 = p
      · subst hkp
        simp [dset, hkq, h]
      · simp [dget, hkq, hkp] at hp hq
        simp [dset, hkq, hkp, ih hp hq]

theorem drm_dset_comm {α : Type} (l : List (Name × α)) (p q : Name)
    (a : α) (h : q ≠ p) :
    drm (dset l q a) p = dset (drm l p) q a := by
  induction l with
  | nil => simp [dset, drm, h]
  | cons e rest ih =>
    obtain ⟨k0, w⟩ := e
    by_cases hkq : k0 = q
    · subst hkq
      simp [dset, drm, h, Ne.symm h]
    · by_cases hkp : k0 = p
      · subst hkp
        simp [dset, drm, hkq, Ne.symm hkq]
      · simp [dset, drm, hkq, hkp, ih]

theorem keys_dset_present {α : Type} (l : List (Name × α)) (k : Name)
    (v v' : α) (h : dget l k = some v) :
    (dset l k v').map Prod.fst = l.map Prod.fst := by
  induction l with
  | nil => simp [dget] at h
  | cons e rest ih =>
    obtain ⟨k0, w⟩ := e
    by_cases h0 : k0 = k
    · subst h0
      simp [dset]
    · simp [dget, h0] at h
      simp [dset, h0, ih h]

theorem dget_drm_self_none {α : Type} (l : List (Name × α)) (k : Name)
    (h : (l.map Prod.fst).Nodup) : dget (drm l k) k = none := by
  induction l with
  | nil => simp [drm, dget]
  | cons e rest ih =>
    obtain ⟨k0, w⟩ := e
    rw [List.map_cons, List.nodup_cons] at h
    by_cases h0 : k0 = k
    · subst h0
      simp [drm]
      cases hg : dget rest k0 with
      | none => rfl
      | some v =>
        exact absurd (List.mem_map_of_mem Prod.fst (dget_mem rest k0 v hg)) h.1
    · simp [drm, dget, h0, ih h.2]

/-- Directory count over a cons cell. -/
theorem ndirs_cons (k0 : Name) (w : FNode) (rest : List (Name × FNode)) :
    ndirs ((k0, w) :: rest) = dirC w + ndirs rest := by
  by_cases hw : isDirN w
  · simp [ndirs, dirC, List.filter_cons, hw]
    omega
  · simp [ndirs, dirC, List.filter_cons, hw]

theorem ndirs_dset_present (cs : List (Name × FNode)) (k : Name)
    (v v' : FNode) (h : dget cs k = some v) :
    ndirs (dset cs k v') + dirC v = ndirs cs + dirC v' := by
  induction cs with
  | nil => simp [dget] at h
  | cons e rest ih =>
    obtain ⟨k0, w⟩ := e
    by_cases h0 : k0 = k
    · subst h0
      simp [dget] at h
      subst h
      simp [dset, ndirs_cons]
      omega
    · simp [dget, h0] at h
      simp [dset, h0, ndirs_cons]
      have := ih h
      omega

theorem ndirs_dset_absent (cs : List (Name × FNode)) (k : Name)
    (v : FNode) (h : dget cs k = none) :
    ndirs (dset cs k v) = ndirs cs + dirC v := by
  induction cs with
  | nil =>
    show ndirs [(k, v)] = ndirs [] + dirC v
    rw [ndirs_cons]
    simp [ndirs]
  | cons e rest ih =>
    obtain ⟨k0, w⟩ := e
    by_cases h0 : k0 = k
    · subst h0
      simp [dget] at h
    · simp [dget, h0] at h
      simp [dset, h0, ndirs_cons]
      have := ih h
      omega

theorem ndirs_drm (cs : List (Name × FNode)) (k : Name) (v : FNode)
    (h : dget cs k = some v) : ndirs (drm cs k) + dirC v = ndirs cs := by
  induction cs with
  | nil => simp [dget] at h
  | cons e rest ih =>
    obtain ⟨k0, w⟩ := e
    by_cases h0 : k0 = k
    · subst h0
      simp [dget] at h
      subst h
      simp [drm, ndirs_cons]
      omega
    · simp [dget, h0] at h
      simp [drm, h0, ndirs_cons]
      have := ih h
      omega

/-! ## Path normalization and tree-predicate lemmas -/

/-- Drop the empty components (both walks skip them). -/
def normP : List Name → List Name
  | [] => []
  | c :: rest => if c = [] then normP rest else c :: normP rest

theorem normP_no_nil (p : List Name) : [] ∉ normP p := by
  induction p with
  | nil => simp [normP]
  | cons c rest ih =>
    by_cases hc : c = []
    · rw [show normP (c :: rest) = normP rest from by simp [normP, hc]]
      exact ih
    · simp only [normP, if_neg hc, List.mem_cons]
      push_neg
      exact ⟨fun he => hc he.symm, ih⟩

theorem nsWalk_normP (p : List Name) : ∀ n, nsWalk n (normP p) = nsWalk n p := by
  induction p with
  | nil => intro n; rfl
  | cons c rest ih =>
    intro n
    by_cases hc : c = []
    · rw [show normP (c :: rest) = normP rest from by simp [normP, hc]]
      rw [show nsWalk n (c :: rest) = nsWalk n rest from by simp [nsWalk, hc]]
      exact ih n
    · cases n with
      | mk m cs =>
        simp only [normP, if_neg hc]
        cases cs with
        | none => simp [nsWalk, hc]
        | some l =>
          simp only [nsWalk, if_neg hc]
          cases dget l c with
          | none => rfl
          | some child => exact ih child

theorem nsUpd_normP (p : List Name) (f : FNode → Except Err FNode) :
    ∀ n, nsUpd n (normP p) f = nsUpd n p f := by
  induction p with
  | nil => intro n; rfl
  | cons c rest ih =>
    intro n
    by_cases hc : c = []
    · rw [show normP (c :: rest) = normP rest from by simp [normP, hc]]
      rw [show nsUpd n (c :: rest) f = nsUpd n rest f from by simp [nsUpd, hc]]
      exact ih n
    · cases n with
      | mk m cs =>
        simp only [normP, if_neg hc]
        cases cs with
        | none => simp [nsUpd, hc]
        | some l =>
          simp only [nsUpd, if_neg hc]
          cases dget l c with
          | none => rfl
          | some child =>
            show (match nsUpd child (normP rest) f with
              | Except.error e => Except.error e
              | Except.ok child' =>
                Except.ok (FNode.mk m (some (dset l c child')))) =
              (match nsUpd child rest f with
              | Except.error e => Except.error e
              | Except.ok child' =>
                Except.ok (FNode.mk m (some (dset l c child'))))
            rw [ih child]

/-- A tree predicate holds at every node a walk can reach. -/
theorem treeAll_nsWalk {L : Meta → Option (List (Name × FNode)) → Prop}
    (p : List Name) : ∀ n t, TreeAll L n → nsWalk n p = .ok t →
    TreeAll L t := by
  induction p with
  | nil =>
    intro n t hall hw
    simp only [nsWalk] at hw
    cases hw
    exact hall
  | cons c rest ih =>
    intro n t hall hw
    by_cases hc : c = []
    · simp only [nsWalk, if_pos hc] at hw
      exact ih n t hall hw
    · cases n with
      | mk m cs =>
        cases cs with
        | none =>
          simp only [nsWalk, if_neg hc] at hw
          cases hw
        | some l =>
          simp only [nsWalk, if_neg hc] at hw
          cases hg : dget l c with
          | none =>
            rw [hg] at hw
            cases hw
          | some child =>
            rw [hg] at hw
            cases hall with
            | mk _ _ hL hkids =>
              exact ih child t (hkids l rfl (c, child) (dget_mem l c child hg)) hw

/-- Master preservation lemma: an in-place update at a path keeps a tree
predicate, provided the local transformation keeps it at the target node
and does not change whether that node is a directory, and the local
condition tolerates replacing one child by another of the same kind. -/
theorem treeAll_nsUpd {L : Meta → Option (List (Name × FNode)) → Prop}
    (HL : ∀ (m : Meta) (cs : List (Name × FNode)) k v v',
      dget cs k = some v → isDirN v' = isDirN v →
      L m (some cs) → L m (some (dset cs k v')))
    (p : List Name) : ∀ (n n' : FNode) (f : FNode → Except Err FNode),
    nsUpd n p f = .ok n' → TreeAll L n →
    (∀ t t', nsWalk n p = .ok t → f t = .ok t' → TreeAll L t →
      TreeAll L t' ∧ isDirN t' = isDirN t) →
    TreeAll L n' ∧ isDirN n' = isDirN n := by
  induction p with
  | nil =>
    intro n n' f hu hall hf
    simp only [nsUpd] at hu
    exact hf n n' (by simp [nsWalk]) hu hall
  | cons c rest ih =>
    intro n n' f hu hall hf
    by_cases hc : c = []
    · simp only [nsUpd, if_pos hc] at hu
      exact ih n n' f hu hall (fun t t' hw => hf t t' (by simpa [nsWalk, hc]))
    · cases n with
      | mk m cs =>
        cases cs with
        | none =>
          simp only [nsUpd, if_neg hc] at hu
          cases hu
        | some l =>
          simp only [nsUpd, if_neg hc] at hu
          cases hg : dget l c with
          | none =>
            rw [hg] at hu
            cases hu
          | some child =>
            simp only [hg] at hu
            cases hrec : nsUpd child rest f with
            | error e =>
              rw [hrec] at hu
              cases hu
            | ok child' =>
              rw [hrec] at hu
              cases hu
              cases hall with
              | mk _ _ hL hkids =>
                have hchild := hkids l rfl (c, child) (dget_mem l c child hg)
                have hsub := ih child child' f hrec hchild
                  (fun t t' hw => hf t t'
                    (by simp only [nsWalk, if_neg hc, hg]; exact hw))
                refine ⟨⟨_, _, HL m l c child child' hg hsub.2 hL, ?_⟩, rfl⟩
                intro cs' hcs' e he
                cases hcs'
                rcases mem_dset l c child' e he with he1 | he1
                · cases he1
                  exact hsub.1
                · exact hkids l rfl e he1

/-- Two successive in-place updates at the same path compose. -/
theorem nsUpd_comp (p : List Name) : ∀ (t t1 t2 : FNode)
    (f g : FNode → Except Err FNode),
    nsUpd t p f = .ok t1 → nsUpd t1 p g = .ok t2 →
    nsUpd t p (fun n => (f n).bind g) = .ok t2 := by
  induction p with
  | nil =>
    intro t t1 t2 f g h1 h2
    simp only [nsUpd] at h1 h2 ⊢
    rw [h1]
    exact h2
  | cons c rest ih =>
    intro t t1 t2 f g h1 h2
    by_cases hc : c = []
    · simp only [nsUpd, if_pos hc] at h1 h2 ⊢
      exact ih t t1 t2 f g h1 h2
    · cases t with
      | mk m cs =>
        cases cs with
        | none =>
          simp only [nsUpd, if_neg hc] at h1
          cases h1
        | some l =>
          simp only [nsUpd, if_neg hc] at h1 ⊢
          cases hg : dget l c with
          | none =>
            rw [hg] at h1
            cases h1
          | some child =>
            simp only [hg] at h1
            cases hrec : nsUpd child rest f with
            | error e =>
              rw [hrec] at h1
              cases h1
            | ok child1 =>
              rw [hrec] at h1
              cases h1
              simp only [nsUpd, if_neg hc, dget_dset_self] at h2
              cases hrec2 : nsUpd child1 rest g with
              | error e =>
                rw [hrec2] at h2
                cases h2
              | ok child2 =>
                rw [hrec2] at h2
                cases h2
                show (match nsUpd child rest (fun n => (f n).bind g) with
                  | Except.error e => Except.error e
                  | Except.ok child' =>
                    Except.ok (FNode.mk m (some (dset l c child')))) =
                  Except.ok (FNode.mk m (some (dset (dset l c child1) c child2)))
                rw [ih child child1 child2 f g hrec hrec2]
                rw [dset_dset_same]

/-- Unfolding helpers for walks and updates. -/
theorem nsWalk_nil (n : FNode) : nsWalk n [] = .ok n := rfl

theorem nsUpd_nil (n : FNode) (f : FNode → Except Err FNode) :
    nsUpd n [] f = f n := rfl

theorem nsWalk_cons_eq (c : Name) (rest : List Name) (m : Meta)
    (l : List (Name × FNode)) (child : FNode) (hc : c ≠ [])
    (hg : dget l c = some child) :
    nsWalk (.mk m (some l)) (c :: rest) = nsWalk child rest := by
  simp [nsWalk, hc, hg]

theorem nsUpd_cons_mk (c : Name) (rest : List Name) (m : Meta)
    (l : List (Name × FNode)) (child child' : FNode)
    (f : FNode → Except Err FNode) (hc : c ≠ [])
    (hg : dget l c = some child) (hr : nsUpd child rest f = .ok child') :
    nsUpd (.mk m (some l)) (c :: rest) f =
      .ok (.mk m (some (dset l c child'))) := by
  simp [nsUpd, hc, hg, hr]

theorem nsUpd_cons_ok (c : Name) (rest : List Name) (m : Meta)
    (l : List (Name × FNode)) (out : FNode)
    (f : FNode → Except Err FNode) (hc : c ≠ [])
    (h : nsUpd (.mk m (some l)) (c :: rest) f = .ok out) :
    ∃ child child', dget l c = some child ∧
      nsUpd child rest f = .ok child' ∧
      out = .mk m (some (dset l c child')) := by
  simp only [nsUpd, if_neg hc] at h
  cases hg : dget l c with
  | none =>
    rw [hg] at h
    cases h
  | some child =>
    simp only [hg] at h
    cases hrec : nsUpd child rest f with
    | error e =>
      rw [hrec] at h
      cases h
    | ok child' =>
      rw [hrec] at h
      cases h
      exact ⟨child, child', rfl, hrec, rfl⟩

theorem popL_mk (k : Name) (m : Meta) (cs : List (Name × FNode)) :
    popL k (.mk m (some cs)) = .ok (.mk m (some (drm cs k))) := rfl

theorem incNlink_mk (m : Meta) (oc : Option (List (Name × FNode))) :
    incNlink (.mk m oc) =
      .ok (.mk { m with st_nlink := m.st_nlink + 1 } oc) := rfl

theorem decNlink_mk (m : Meta) (oc : Option (List (Name × FNode))) :
    decNlink (.mk m oc) =
      .ok (.mk { m with st_nlink := m.st_nlink - 1 } oc) := rfl

/-- Key commutation step for `rename`: the `pn['st_nlink'] += 1` update
(at path `Q`) can be moved after the `pop` update (at path `P`),
provided the later walk down `Q` in the popped tree succeeds (which the
insertion step of a successful rename guarantees) and child names are
duplicate-free.  The popped entry `po1` as re-fetched before the pop is
also shown to exist untouched in the tree before the `+= 1` update. -/
theorem swap_inc_pop (po1 : Name) : ∀ (Q P : List Name)
    (t tq tqp w : FNode) (pm : Meta) (pcs : List (Name × FNode))
    (mv : FNode),
    [] ∉ P → [] ∉ Q → KeysUniq t →
    nsUpd t Q incNlink = .ok tq →
    nsUpd tq P (popL po1) = .ok tqp →
    nsWalk tqp Q = .ok w →
    nsWalk tq P = .ok (.mk pm (some pcs)) →
    dget pcs po1 = some mv →
    ∃ tb pm0 pcs0,
      nsWalk t P = .ok (.mk pm0 (some pcs0)) ∧ dget pcs0 po1 = some mv ∧
      nsUpd t P (popL po1) = .ok tb ∧ nsUpd tb Q incNlink = .ok tqp := by
  intro Q
  induction Q with
  | nil =>
    intro P t tq tqp w pm pcs mv hP hQ hU hq hp hwq hrf hmv
    cases t with
    | mk m oc =>
      rw [nsUpd_nil, incNlink_mk] at hq
      cases hq
      cases P with
      | nil =>
        rw [nsUpd_nil] at hp
        cases oc with
        | none => cases hp
        | some cs =>
          rw [popL_mk] at hp
          cases hp
          rw [nsWalk_nil] at hrf
          cases hrf
          refine ⟨.mk m (some (drm pcs po1)), m, pcs, nsWalk_nil _, hmv,
            by rw [nsUpd_nil, popL_mk], ?_⟩
          rw [nsUpd_nil, incNlink_mk]
      | cons p P' =>
        have hpne : p ≠ [] := fun he => hP (he ▸ List.mem_cons_self p P')
        cases oc with
        | none =>
          simp only [nsUpd, if_neg hpne] at hp
          cases hp
        | some cs =>
          obtain ⟨vp, vp2, hg, hrec, rfl⟩ :=
            nsUpd_cons_ok p P' _ cs tqp _ hpne hp
          rw [nsWalk_cons_eq p P' _ cs vp hpne hg] at hrf
          refine ⟨.mk m (some (dset cs p vp2)), pm, pcs, ?_, hmv, ?_, ?_⟩
          · rw [nsWalk_cons_eq p P' m cs vp hpne hg]
            exact hrf
          · exact nsUpd_cons_mk p P' m cs vp vp2 _ hpne hg hrec
          · rw [nsUpd_nil, incNlink_mk]
  | cons q Q' ih =>
    intro P t tq tqp w pm pcs mv hP hQ hU hq hp hwq hrf hmv
    have hqne : q ≠ [] := fun he => hQ (he ▸ List.mem_cons_self q Q')
    have hQ' : [] ∉ Q' := fun hm => hQ (List.mem_cons_of_mem q hm)
    cases t with
    | mk m oc =>
      cases oc with
      | none =>
        simp only [nsUpd, if_neg hqne] at hq
        cases hq
      | some csl =>
        obtain ⟨vq, vq', hgq, hrq, rfl⟩ :=
          nsUpd_cons_ok q Q' m csl tq incNlink hqne hq
        have hnod : (csl.map Prod.fst).Nodup := by
          cases hU with
          | mk _ _ hL _ => exact hL csl rfl
        have hUvq : KeysUniq vq := by
          cases hU with
          | mk _ _ _ hkids =>
            exact hkids csl rfl (q, vq) (dget_mem csl q vq hgq)
        cases P with
        | nil =>
          rw [nsUpd_nil, popL_mk] at hp
          cases hp
          rw [nsWalk_nil] at hrf
          injection hrf with h1
          injection h1 with hm1 hc1
          injection hc1 with hc2
          subst hm1
          subst hc2
          have hqpo : q ≠ po1 := by
            intro he
            subst he
            have hnone : dget (drm (dset csl q vq') q) q = none := by
              apply dget_drm_self_none
              rw [keys_dset_present csl q vq vq' hgq]
              exact hnod
            simp only [nsWalk, if_neg hqne, hnone] at hwq
            cases hwq
          have hmv' : dget csl po1 = some mv := by
            rw [← dget_dset_ne csl q po1 vq' (Ne.symm hqpo)]
            exact hmv
          refine ⟨.mk m (some (drm csl po1)), m, csl, nsWalk_nil _, hmv',
            by rw [nsUpd_nil, popL_mk], ?_⟩
          have hgq' : dget (drm csl po1) q = some vq :=
            (dget_drm_ne csl po1 q hqpo).trans hgq
          rw [nsUpd_cons_mk q Q' m (drm csl po1) vq vq' incNlink hqne hgq'
            hrq]
          rw [drm_dset_comm csl po1 q vq' hqpo]
        | cons p P' =>
          have hpne : p ≠ [] := fun he => hP (he ▸ List.mem_cons_self p P')
          have hP' : [] ∉ P' := fun hm => hP (List.mem_cons_of_mem p hm)
          obtain ⟨xp, xp2, hgp, hrp, rfl⟩ :=
            nsUpd_cons_ok p P' m (dset csl q vq') _ (popL po1) hpne hp
          by_cases hpq : q = p
          · subst hpq
            rw [dget_dset_self] at hgp
            injection hgp with hgp1
            subst hgp1
            rw [dset_dset_same] at hwq
            rw [nsWalk_cons_eq q Q' m (dset csl q xp2) xp2 hqne
              (dget_dset_self csl q xp2)] at hwq
            rw [nsWalk_cons_eq q P' m (dset csl q vq') vq' hqne
              (dget_dset_self csl q vq')] at hrf
            obtain ⟨vb, pm0, pcs0, hwalkv, hdget0, hpopv, hincv⟩ :=
              ih P' vq vq' xp2 w pm pcs mv hP' hQ' hUvq hrq hrp hwq hrf hmv
            refine ⟨.mk m (some (dset csl q vb)), pm0, pcs0, ?_, hdget0,
              ?_, ?_⟩
            · rw [nsWalk_cons_eq q P' m csl vq hqne hgq]
              exact hwalkv
            · exact nsUpd_cons_mk q P' m csl vq vb _ hqne hgq hpopv
            · rw [nsUpd_cons_mk q Q' m (dset csl q vb) vb xp2 incNlink hqne
                (dget_dset_self csl q vb) hincv]
              rw [dset_dset_same, dset_dset_same]
          · have hqp' : p ≠ q := fun he => hpq he.symm
            rw [dget_dset_ne csl q p vq' hqp'] at hgp
            rw [nsWalk_cons_eq p P' m (dset csl q vq') xp hpne
              ((dget_dset_ne csl q p vq' hqp').trans hgp)] at hrf
            refine ⟨.mk m (some (dset csl p xp2)), pm, pcs, ?_, hmv, ?_, ?_⟩
            · rw [nsWalk_cons_eq p P' m csl xp hpne hgp]
              exact hrf
            · exact nsUpd_cons_mk p P' m csl xp xp2 _ hpne hgp hrp
            · have hgq2 : dget (dset csl p xp2) q = some vq :=
                (dget_dset_ne csl p q xp2 (Ne.symm hqp')).trans hgq
              rw [nsUpd_cons_mk q Q' m (dset csl p xp2) vq vq' incNlink hqne
                hgq2 hrq]
              rw [show dset (dset csl p xp2) q vq' =
                  dset (dset csl q vq') p xp2 from
                (dset_dset_comm csl p q xp2 vq' xp vq hqp' hgp hgq).symm]

/-- Child lookup through the `files` key. -/
def chGet (n : FNode) (k : Name) : Option FNode :=
  match n.children with
  | none => none
  | some cs => dget cs k

theorem chGet_mk_some (m : Meta) (cs : List (Name × FNode)) (k : Name) :
    chGet (.mk m (some cs)) k = dget cs k := rfl

/-- An update whose local transformation preserves directory-ness
preserves it for the whole updated subtree. -/
theorem nsUpd_dirness (P : List Name) : ∀ (t t' : FNode)
    (f : FNode → Except Err FNode),
    nsUpd t P f = .ok t' →
    (∀ n n', nsWalk t P = .ok n → f n = .ok n' → isDirN n' = isDirN n) →
    isDirN t' = isDirN t := by
  induction P with
  | nil =>
    intro t t' f hu hf
    exact hf t t' (nsWalk_nil t) hu
  | cons c rest ih =>
    intro t t' f hu hf
    by_cases hc : c = []
    · simp only [nsUpd, if_pos hc] at hu
      exact ih t t' f hu (fun n n' hw => hf n n' (by simpa [nsWalk, hc]))
    · cases t with
      | mk m oc =>
        cases oc with
        | none =>
          simp only [nsUpd, if_neg hc] at hu
          cases hu
        | some l =>
          obtain ⟨child, child', hg, hrec, rfl⟩ :=
            nsUpd_cons_ok c rest m l t' f hc hu
          rfl

/-- Backward frame: after an in-place update whose local transformation
only removes or keeps child entries unchanged (and keeps
directory-ness), every node reachable in the new tree corresponds to a
node reachable by the same path in the old tree, with the same
directory-ness, and every surviving child entry maps to an old entry of
the same directory-ness.  Both paths are taken without empty
components. -/
theorem nsUpd_frame_back (Q : List Name) : ∀ (P : List Name) (t t' : FNode)
    (f : FNode → Except Err FNode),
    [] ∉ P → [] ∉ Q →
    nsUpd t P f = .ok t' →
    (∀ n n', nsWalk t P = .ok n → f n = .ok n' → isDirN n' = isDirN n ∧
      ∀ k e', chGet n' k = some e' → chGet n k = some e') →
    ∀ qn', nsWalk t' Q = .ok qn' →
    ∃ qn, nsWalk t Q = .ok qn ∧ isDirN qn = isDirN qn' ∧
      (∀ k e', chGet qn' k = some e' →
        ∃ e0, chGet qn k = some e0 ∧ isDirN e0 = isDirN e') := by
  induction Q with
  | nil =>
    intro P t t' f hP hQ hu hf qn' hwq
    rw [nsWalk_nil] at hwq
    cases hwq
    refine ⟨t, nsWalk_nil t, ?_, ?_⟩
    · exact (nsUpd_dirness P t t' f hu
        (fun n n' hw hfn => (hf n n' hw hfn).1)).symm
    · cases P with
      | nil =>
        rw [nsUpd_nil] at hu
        intro k e' he
        exact ⟨e', (hf t t' (nsWalk_nil t) hu).2 k e' he, rfl⟩
      | cons p P' =>
        have hpne : p ≠ [] := fun he => hP (he ▸ List.mem_cons_self p P')
        have hP' : [] ∉ P' := fun hm => hP (List.mem_cons_of_mem p hm)
        cases t with
        | mk m oc =>
          cases oc with
          | none =>
            simp only [nsUpd, if_neg hpne] at hu
            cases hu
          | some l =>
            obtain ⟨child, child', hg, hrec, rfl⟩ :=
              nsUpd_cons_ok p P' m l t' f hpne hu
            intro k e' he
            rw [chGet_mk_some] at he ⊢
            by_cases hk : k = p
            · subst hk
              rw [dget_dset_self] at he
              injection he with he1
              subst he1
              refine ⟨child, hg, ?_⟩
              exact (nsUpd_dirness P' child child' f hrec
                (fun n n' hw hfn => (hf n n'
                  (by rw [nsWalk_cons_eq k P' m l child hpne hg]; exact hw)
                  hfn).1)).symm
            · rw [dget_dset_ne l p k child' hk] at he
              exact ⟨e', he, rfl⟩
  | cons q Q' ih =>
    intro P t t' f hP hQ hu hf qn' hwq
    have hqne : q ≠ [] := fun he => hQ (he ▸ List.mem_cons_self q Q')
    have hQ' : [] ∉ Q' := fun hm => hQ (List.mem_cons_of_mem q hm)
    cases P with
    | nil =>
      rw [nsUpd_nil] at hu
      cases t' with
      | mk m' oc' =>
        cases oc' with
        | none =>
          simp only [nsWalk, if_neg hqne] at hwq
          cases hwq
        | some cs' =>
          cases hg' : dget cs' q with
          | none =>
            simp only [nsWalk, if_neg hqne, hg'] at hwq
            cases hwq
          | some y =>
            rw [nsWalk_cons_eq q Q' m' cs' y hqne hg'] at hwq
            have hy : chGet t q = some y :=
              (hf t (.mk m' (some cs')) (nsWalk_nil t) hu).2 q y
                (by rw [chGet_mk_some]; exact hg')
            cases t with
            | mk m oc =>
              cases oc with
              | none => simp [chGet, FNode.children] at hy
              | some cs =>
                rw [chGet_mk_some] at hy
                refine ⟨qn', ?_, rfl, fun k e' he => ⟨e', he, rfl⟩⟩
                rw [nsWalk_cons_eq q Q' m cs y hqne hy]
                exact hwq
    | cons p P' =>
      have hpne : p ≠ [] := fun he => hP (he ▸ List.mem_cons_self p P')
      have hP' : [] ∉ P' := fun hm => hP (List.mem_cons_of_mem p hm)
      cases t with
      | mk m oc =>
        cases oc with
        | none =>
          simp only [nsUpd, if_neg hpne] at hu
          cases hu
        | some l =>
          obtain ⟨child, child', hg, hrec, rfl⟩ :=
            nsUpd_cons_ok p P' m l t' f hpne hu
          by_cases hk : q = p
          · subst hk
            rw [nsWalk_cons_eq q Q' m (dset l q child') child' hqne
              (dget_dset_self l q child')] at hwq
            obtain ⟨qn, h1, h2, h3⟩ := ih P' child child' f hP' hQ' hrec
              (fun n n' hw => hf n n'
                (by rw [nsWalk_cons_eq q P' m l child hqne hg]; exact hw))
              qn' hwq
            refine ⟨qn, ?_, h2, h3⟩
            rw [nsWalk_cons_eq q Q' m l child hqne hg]
            exact h1
          · cases hgy : dget (dset l p child') q with
            | none =>
              simp only [nsWalk, if_neg hqne, hgy] at hwq
              cases hwq
            | some y =>
              rw [nsWalk_cons_eq q Q' m (dset l p child') y hqne hgy] at hwq
              rw [dget_dset_ne l p q child' hk] at hgy
              refine ⟨qn', ?_, rfl, fun k e' he => ⟨e', he, rfl⟩⟩
              rw [nsWalk_cons_eq q Q' m l y hqne hgy]
              exact hwq

/-! ## Preservation of the link-count invariant -/

theorem dirC_eq_of (v v' : FNode) (h : isDirN v' = isDirN v) :
    dirC v' = dirC v := by
  simp [dirC, h]

theorem treeAll_local {L : Meta → Option (List (Name × FNode)) → Prop}
    (m : Meta) (oc : Option (List (Name × FNode)))
    (h : TreeAll L (.mk m oc)) : L m oc := by
  cases h with
  | mk _ _ hL _ => exact hL

theorem treeAll_child {L : Meta → Option (List (Name × FNode)) → Prop}
    (m : Meta) (cs : List (Name × FNode)) (k : Name) (v : FNode)
    (h : TreeAll L (.mk m (some cs))) (hm : (k, v) ∈ cs) : TreeAll L v := by
  cases h with
  | mk _ _ _ hkids => exact hkids cs rfl (k, v) hm

/-- The local condition of `LinkInv` tolerates replacing a child by one
of the same kind. -/
theorem linkInv_HL : ∀ (m : Meta) (cs : List (Name × FNode)) (k : Name)
    (v v' : FNode), dget cs k = some v → isDirN v' = isDirN v →
    (∀ cs', some cs = some cs' → m.st_nlink = 2 + (ndirs cs' : Int)) →
    (∀ cs', some (dset cs k v') = some cs' →
      m.st_nlink = 2 + (ndirs cs' : Int)) := by
  intro m cs k v v' hg hd hL cs' hcs'
  injection hcs' with hcs'
  subst hcs'
  have h1 := ndirs_dset_present cs k v v' hg
  rw [dirC_eq_of v v' hd] at h1
  have h2 := hL cs rfl
  omega

/-- The local condition of `KeysUniq` tolerates replacing a present
child. -/
theorem keysUniq_HL : ∀ (_m : Meta) (cs : List (Name × FNode)) (k : Name)
    (v v' : FNode), dget cs k = some v → isDirN v' = isDirN v →
    (∀ cs', some cs = some cs' → (cs'.map Prod.fst).Nodup) →
    (∀ cs', some (dset cs k v') = some cs' →
      (cs'.map Prod.fst).Nodup) := by
  intro m cs k v v' hg hd hL cs' hcs'
  injection hcs' with hcs'
  subst hcs'
  rw [keys_dset_present cs k v v' hg]
  exact hL cs rfl

/-- The freshly initialized root satisfies the invariant. -/
theorem initFS_linkInv (now : Nat) : LinkInv (initFS now).root := by
  refine ⟨_, _, ?_, ?_⟩
  · intro cs h
    injection h with h
    subst h
    simp [ndirs, initFS]
  · intro cs h
    injection h with h
    subst h
    intro e he
    cases he

/-- C7 component: `mkdir` on a fresh target name preserves the link
invariant (the parent gains one child directory and one link). -/
theorem mkdir_preserves_linkInv (s : FS) (path : Name) (mode now : Nat)
    (pm : Meta) (pcs : List (Name × FNode))
    (hpar : nsWalk s.root (splitSlash (parentTarget path).1) =
      .ok (.mk pm (some pcs)))
    (hfresh : dget pcs (parentTarget path).2 = none)
    (hInv : LinkInv s.root) :
    LinkInv (Memory.mkdir s path mode now).2.root := by
  obtain ⟨r, h1, h2⟩ := nsUpd_ok_of_walk
    (splitSlash (parentTarget path).1) s.root (.mk pm (some pcs))
    (.mk { pm with st_nlink := pm.st_nlink + 1 }
      (some (dset pcs (parentTarget path).2 (newDirNode mode now))))
    (fun n =>
      match n with
      | .mk _ none => .error .keyError
      | .mk m (some cs) =>
        .ok (.mk { m with st_nlink := m.st_nlink + 1 }
          (some (dset cs (parentTarget path).2 (newDirNode mode now)))))
    hpar rfl
  have hroot : (Memory.mkdir s path mode now).2.root = r := by
    simp only [Memory.mkdir, h1]
    rcases dUpd s.data (splitSlash (parentTarget path).1)
        (fun dn =>
          match dn with
          | .str s' => (.error .typeError, .str s')
          | .dd m => (.ok (), .dd (dset m (parentTarget path).2 (.dd [])))) with
      ⟨res, d'⟩
    cases res <;> rfl
  rw [hroot]
  have := treeAll_nsUpd linkInv_HL (splitSlash (parentTarget path).1)
    s.root r _ h1 hInv ?_
  · exact this.1
  · intro t t' hw hft hallt
    rw [hpar] at hw
    injection hw with hw
    subst hw
    injection hft with hft
    subst hft
    constructor
    constructor
    · intro cs' hcs'
      injection hcs' with hcs'
      subst hcs'
      have h3 := ndirs_dset_absent pcs (parentTarget path).2
        (newDirNode mode now) hfresh
      have h4 : dirC (newDirNode mode now) = 1 := by
        simp [dirC, isDirN, newDirNode, FNode.children]
      have h5 := treeAll_local pm (some pcs) hallt pcs rfl
      simp only []
      omega
    · intro cs' hcs' e he
      injection hcs' with hcs'
      subst hcs'
      rcases mem_dset pcs (parentTarget path).2 (newDirNode mode now) e he
        with he1 | he1
      · subst he1
        refine ⟨_, _, ?_, ?_⟩
        · intro ccs hccs
          injection hccs with hccs
          subst hccs
          simp [ndirs, newDirNode]
        · intro ccs hccs
          injection hccs with hccs
          subst hccs
          intro e2 he2
          cases he2
      · exact treeAll_child pm pcs e.1 e.2 hallt (by simpa using he1)
    rfl

/-- C7 component: a successful `rmdir` preserves the link invariant
(the removed child was an empty directory; the parent loses one child
directory and one link). -/
theorem rmdir_preserves_linkInv (s : FS) (path : Name) (s' : FS)
    (hInv : LinkInv s.root)
    (h : Memory.rmdir s path = (.ok (), s')) : LinkInv s'.root := by
  simp only [Memory.rmdir] at h
  cases h1 : nsUpd s.root (splitSlash (parentTarget path).1)
      (fun n =>
        match n with
        | .mk _ none => .error .keyError
        | .mk m (some cs) =>
          match dget cs (parentTarget path).2 with
          | none => .error .keyError
          | some (.mk _ none) => .error .keyError
          | some (.mk _ (some ccs)) =>
            if ccs.length > 0 then .error (.fuseError ENOTEMPTY)
            else .ok (.mk { m with st_nlink := m.st_nlink - 1 }
              (some (drm cs (parentTarget path).2)))) with
  | error e =>
    rw [h1] at h
    simp at h
  | ok root' =>
    simp only [h1] at h
    have h2 := congrArg Prod.snd h
    simp only [] at h2
    subst h2
    show LinkInv root'
    have := treeAll_nsUpd linkInv_HL (splitSlash (parentTarget path).1)
      s.root root' _ h1 hInv ?_
    · exact this.1
    · intro t t' hw hft hallt
      cases t with
      | mk m oc =>
        cases oc with
        | none => cases hft
        | some cs =>
          simp only [] at hft
          cases hgc : dget cs (parentTarget path).2 with
          | none =>
            rw [hgc] at hft
            cases hft
          | some child =>
            cases child with
            | mk cm cco =>
              cases cco with
              | none =>
                rw [hgc] at hft
                cases hft
              | some ccs =>
                rw [hgc] at hft
                simp only [] at hft
                by_cases hlen : ccs.length > 0
                · rw [if_pos hlen] at hft
                  cases hft
                · rw [if_neg hlen] at hft
                  injection hft with hft
                  subst hft
                  constructor
                  constructor
                  · intro cs' hcs'
                    injection hcs' with hcs'
                    subst hcs'
                    have h3 := ndirs_drm cs (parentTarget path).2
                      (.mk cm (some ccs)) hgc
                    have h4 : dirC (.mk cm (some ccs)) = 1 := by
                      simp [dirC, isDirN, FNode.children]
                    have h5 := treeAll_local m (some cs) hallt cs rfl
                    simp only []
                    omega
                  · intro cs' hcs' e he
                    injection hcs' with hcs'
                    subst hcs'
                    exact treeAll_child m cs e.1 e.2 hallt
                      (by simpa using mem_drm cs (parentTarget path).2 e he)
                  rfl

/-- Inversion of a successful namespace rename phase into its source
steps. -/
theorem renameNs_ok_elim (root : FNode) (old new : Name) (t3 : FNode)
    (h : renameNs root old new = (.ok (), t3)) :
    ∃ pom pocs c t1 pom' pocs' moved t2,
      nsWalk root (splitSlash (parentTarget old).1) =
        .ok (.mk pom (some pocs)) ∧
      dget pocs (parentTarget old).2 = some c ∧
      ((c.meta.st_mode &&& MODEMASK = S_IFDIR ∧
        ∃ ta, nsUpd root (splitSlash (parentTarget old).1) decNlink =
            .ok ta ∧
          nsUpd ta (splitSlash (parentTarget new).1) incNlink = .ok t1) ∨
       (¬ c.meta.st_mode &&& MODEMASK = S_IFDIR ∧ t1 = root)) ∧
      nsWalk t1 (splitSlash (parentTarget old).1) =
        .ok (.mk pom' (some pocs')) ∧
      dget pocs' (parentTarget old).2 = some moved ∧
      nsUpd t1 (splitSlash (parentTarget old).1)
        (popL (parentTarget old).2) = .ok t2 ∧
      nsUpd t2 (splitSlash (parentTarget new).1)
        (insL (parentTarget new).2 moved) = .ok t3 := by
  simp only [renameNs] at h
  cases hw1 : nsWalk root (splitSlash (parentTarget old).1) with
  | error e =>
    rw [hw1] at h
    simp at h
  | ok po =>
    simp only [hw1] at h
    cases hw2 : nsWalk root (splitSlash (parentTarget new).1) with
    | error e =>
      rw [hw2] at h
      simp at h
    | ok pn =>
      simp only [hw2] at h
      cases po with
      | mk pom poc =>
        cases poc with
        | none => simp [FNode.children] at h
        | some pocs =>
          simp only [FNode.children] at h
          cases hgc : dget pocs (parentTarget old).2 with
          | none =>
            rw [hgc] at h
            simp at h
          | some c =>
            simp only [hgc] at h
            refine ⟨pom, pocs, c, ?_⟩
            by_cases hdir : c.meta.st_mode &&& MODEMASK = S_IFDIR
            · rw [if_pos hdir] at h
              cases hd1 : nsUpd root (splitSlash (parentTarget old).1)
                  decNlink with
              | error e =>
                rw [hd1] at h
                simp at h
              | ok ta =>
                simp only [hd1] at h
                cases hd2 : nsUpd ta (splitSlash (parentTarget new).1)
                    incNlink with
                | error e =>
                  rw [hd2] at h
                  simp at h
                | ok t1 =>
                  simp only [hd2] at h
                  cases hw3 : nsWalk t1 (splitSlash (parentTarget old).1) with
                  | error e =>
                    rw [hw3] at h
                    simp at h
                  | ok po' =>
                    simp only [hw3] at h
                    cases po' with
                    | mk pom' poc' =>
                      cases poc' with
                      | none => simp [FNode.children] at h
                      | some pocs' =>
                        simp only [FNode.children] at h
                        cases hgm : dget pocs' (parentTarget old).2 with
                        | none =>
                          rw [hgm] at h
                          simp at h
                        | some moved =>
                          simp only [hgm] at h
                          cases hp1 : nsUpd t1
                              (splitSlash (parentTarget old).1)
                              (popL (parentTarget old).2) with
                          | error e =>
                            rw [hp1] at h
                            simp at h
                          | ok t2 =>
                            simp only [hp1] at h
                            cases hp2 : nsUpd t2
                                (splitSlash (parentTarget new).1)
                                (insL (parentTarget new).2 moved) with
                            | error e =>
                              rw [hp2] at h
                              simp at h
                            | ok t3' =>
                              simp only [hp2] at h
                              obtain ⟨-, h2⟩ := Prod.mk.inj h
                              subst h2
                              exact ⟨t1, pom', pocs', moved, t2, rfl, hgc,
                                Or.inl ⟨hdir, ta, rfl, hd2⟩, hw3, hgm, hp1,
                                hp2⟩
            · rw [if_neg hdir] at h
              simp only [] at h
              cases hw3 : nsWalk root (splitSlash (parentTarget old).1) with
              | error e =>
                rw [hw3] at h
                simp at h
              | ok po' =>
                simp only [hw3] at h
                cases po' with
                | mk pom' poc' =>
                  cases poc' with
                  | none => simp [FNode.children] at h
                  | some pocs' =>
                    simp only [FNode.children] at h
                    cases hgm : dget pocs' (parentTarget old).2 with
                    | none =>
                      rw [hgm] at h
                      simp at h
                    | some moved =>
                      simp only [hgm] at h
                      cases hp1 : nsUpd root
                          (splitSlash (parentTarget old).1)
                          (popL (parentTarget old).2) with
                      | error e =>
                        rw [hp1] at h
                        simp at h
                      | ok t2 =>
                        simp only [hp1] at h
                        cases hp2 : nsUpd t2
                            (splitSlash (parentTarget new).1)
                            (insL (parentTarget new).2 moved) with
                        | error e =>
                          rw [hp2] at h
                          simp at h
                        | ok t3' =>
                          simp only [hp2] at h
                          obtain ⟨-, h2⟩ := Prod.mk.inj h
                          subst h2
                          exact ⟨root, pom', pocs', moved, t2, rfl, hgc,
                            Or.inr ⟨hdir, rfl⟩, hw3, hgm, hp1, hp2⟩

theorem insL_mk (k : Name) (v : FNode) (m : Meta)
    (cs : List (Name × FNode)) :
    insL k v (.mk m (some cs)) = .ok (.mk m (some (dset cs k v))) := rfl

/-- Under `ModeWF`, the mode test of `rename` agrees with the
structural directory test. -/
theorem modeWF_isDirN (c : FNode) (h : ModeWF c) :
    isDirN c = true ↔ c.meta.st_mode &&& MODEMASK = S_IFDIR := by
  cases c with
  | mk m oc =>
    have hL := treeAll_local m oc h
    cases oc with
    | none =>
      simp only [isDirN, FNode.children, FNode.meta, Option.isSome] at hL ⊢
      simp at hL
      simp [hL]
    | some cs =>
      simp only [isDirN, FNode.children, FNode.meta, Option.isSome] at hL ⊢
      simp at hL
      simp [hL]

/-- `KeysUniq` survives a pure link-count update. -/
theorem keysUniq_nsUpd_meta (P : List Name) (root ta : FNode)
    (g : FNode → Except Err FNode)
    (hg : ∀ m oc, ∃ m', g (.mk m oc) = .ok (.mk m' oc))
    (hU : KeysUniq root) (h : nsUpd root P g = .ok ta) : KeysUniq ta := by
  have := treeAll_nsUpd keysUniq_HL P root ta g h hU ?_
  · exact this.1
  · intro t t' hw hft hallt
    cases t with
    | mk m oc =>
      obtain ⟨m', hm'⟩ := hg m oc
      rw [hm'] at hft
      injection hft with hft
      subst hft
      constructor
      constructor
      · intro cs hcs
        exact treeAll_local m oc hallt cs hcs
      · intro cs hcs e he
        cases hallt with
        | mk _ _ _ hkids => exact hkids cs hcs e he
      rfl

/-- C7 component: a successful namespace `rename` phase whose
destination entry is not an existing directory preserves the link
invariant.  `hWF` ties the mode test of the source to the structural
directory criterion, and `hU` reflects that Python dicts cannot hold
duplicate keys. -/
theorem renameNs_preserves_linkInv (root : FNode) (old new : Name)
    (t3 : FNode) (hInv : LinkInv root) (hWF : ModeWF root)
    (hU : KeysUniq root)
    (hns : renameNs root old new = (.ok (), t3))
    (hdest : ∀ qm qcs e,
      nsWalk root (splitSlash (parentTarget new).1) =
        .ok (.mk qm (some qcs)) →
      ((parentTarget new).2, e) ∈ qcs → isDirN e = false) :
    LinkInv t3 := by
  obtain ⟨pom, pocs, c, t1, pom', pocs', moved, t2, hw1, hgc, hbranch, hw3,
    hgm, hp1, hp2⟩ := renameNs_ok_elim root old new t3 hns
  -- normalized paths
  rw [← nsWalk_normP] at hw1 hw3
  rw [← nsUpd_normP] at hp1 hp2
  have hPn : [] ∉ normP (splitSlash (parentTarget old).1) := normP_no_nil _
  have hQn : [] ∉ normP (splitSlash (parentTarget new).1) := normP_no_nil _
  -- invariants at the old parent node
  have hWFpar : ModeWF (.mk pom (some pocs)) :=
    treeAll_nsWalk _ root _ hWF hw1
  have hWFc : ModeWF c :=
    treeAll_child pom pocs _ c hWFpar (dget_mem pocs _ c hgc)
  have hInvpar : LinkInv (.mk pom (some pocs)) :=
    treeAll_nsWalk _ root _ hInv hw1
  have hInvc : LinkInv c :=
    treeAll_child pom pocs _ c hInvpar (dget_mem pocs _ c hgc)
  have hUpar : KeysUniq (.mk pom (some pocs)) :=
    treeAll_nsWalk _ root _ hU hw1
  have hnodpar : (pocs.map Prod.fst).Nodup :=
    treeAll_local pom (some pocs) hUpar pocs rfl
  rcases hbranch with ⟨hdir, ta, hd1, hd2⟩ | ⟨hdir, rfl⟩
  · -- the moved node is a directory
    have hcdir : isDirN c = true := (modeWF_isDirN c hWFc).mpr hdir
    rw [← nsUpd_normP] at hd1 hd2
    obtain ⟨bt, bt', hwbt, hins, hwbt'⟩ := nsUpd_ok_elim _ t2 t3 _ hp2
    have hUta : KeysUniq ta := keysUniq_nsUpd_meta _ root ta decNlink
      (fun m oc => ⟨_, decNlink_mk m oc⟩) hU hd1
    obtain ⟨tb, pm0, pcs0, hwalk_ta, hdget0, hpop_ta, hinc_tb⟩ :=
      swap_inc_pop (parentTarget old).2 _ _ ta t1 t2 bt pom' pocs' moved
        hPn hQn hUta hd2 hp1 hwbt hw3 hgm
    obtain ⟨tg, tg', hwg, hfg, hwg'⟩ := nsUpd_ok_elim _ root ta decNlink hd1
    rw [hw1] at hwg
    injection hwg with hwg
    subst hwg
    rw [decNlink_mk] at hfg
    injection hfg with hfg
    subst hfg
    rw [hwg'] at hwalk_ta
    injection hwalk_ta with hwalk_ta
    injection hwalk_ta with hwa hwb
    subst hwa
    injection hwb with hwb
    subst hwb
    rw [hgc] at hdget0
    injection hdget0 with hdget0
    subst hdget0
    have hcomp1 := nsUpd_comp _ root ta tb decNlink
      (popL (parentTarget old).2) hd1 hpop_ta
    have hInvTb : LinkInv tb := by
      have := treeAll_nsUpd linkInv_HL _ root tb _ hcomp1 hInv ?_
      · exact this.1
      · intro t t' hw hft hallt
        rw [hw1] at hw
        injection hw with hw
        subst hw
        rw [show ((decNlink (FNode.mk pom (some pocs))).bind
            (popL (parentTarget old).2)) =
            Except.ok (FNode.mk { pom with st_nlink := pom.st_nlink - 1 }
              (some (drm pocs (parentTarget old).2))) from rfl] at hft
        injection hft with hft
        subst hft
        refine ⟨?_, rfl⟩
        constructor
        · intro cs' hcs'
          injection hcs' with hcs'
          subst hcs'
          have h3 := ndirs_drm pocs (parentTarget old).2 c hgc
          have h4 : dirC c = 1 := by simp [dirC, hcdir]
          have h5 := treeAll_local pom (some pocs) hallt pocs rfl
          simp only []
          omega
        · intro cs' hcs' e he
          injection hcs' with hcs'
          subst hcs'
          exact treeAll_child pom pocs e.1 e.2 hallt
            (by simpa using mem_drm pocs (parentTarget old).2 e he)
    have hfc : ∀ n n',
        nsWalk root (normP (splitSlash (parentTarget old).1)) = .ok n →
        (decNlink n).bind (popL (parentTarget old).2) = .ok n' →
        isDirN n' = isDirN n ∧
        ∀ k e', chGet n' k = some e' → chGet n k = some e' := by
      intro n n' hwn hfn
      rw [hw1] at hwn
      injection hwn with hwn
      subst hwn
      rw [show ((decNlink (FNode.mk pom (some pocs))).bind
          (popL (parentTarget old).2)) =
          Except.ok (FNode.mk { pom with st_nlink := pom.st_nlink - 1 }
            (some (drm pocs (parentTarget old).2))) from rfl] at hfn
      injection hfn with hfn
      subst hfn
      refine ⟨rfl, ?_⟩
      intro k e' he2
      rw [chGet_mk_some] at he2 ⊢
      by_cases hk : k = (parentTarget old).2
      · subst hk
        rw [dget_drm_self_none pocs (parentTarget old).2 hnodpar] at he2
        cases he2
      · rw [dget_drm_ne pocs (parentTarget old).2 k hk] at he2
        exact he2
    have hcomp2 := nsUpd_comp _ tb t2 t3 incNlink
      (insL (parentTarget new).2 c) hinc_tb hp2
    have := treeAll_nsUpd linkInv_HL _ tb t3 _ hcomp2 hInvTb ?_
    · exact this.1
    · intro t t' hw hft hallt
      cases t with
      | mk um uoc =>
        cases uoc with
        | none =>
          rw [show ((incNlink (FNode.mk um none)).bind
              (insL (parentTarget new).2 c)) = Except.error Err.keyError
              from rfl] at hft
          cases hft
        | some ucs =>
          rw [show ((incNlink (FNode.mk um (some ucs))).bind
              (insL (parentTarget new).2 c)) =
              Except.ok (FNode.mk { um with st_nlink := um.st_nlink + 1 }
                (some (dset ucs (parentTarget new).2 c))) from rfl] at hft
          injection hft with hft
          subst hft
          have hdest2 : ∀ e', dget ucs (parentTarget new).2 = some e' →
              isDirN e' = false := by
            intro e' he'
            obtain ⟨qn, hqn, hdq, hent⟩ := nsUpd_frame_back
              (normP (splitSlash (parentTarget new).1))
              (normP (splitSlash (parentTarget old).1)) root tb _ hPn hQn
              hcomp1 hfc (.mk um (some ucs)) hw
            obtain ⟨e0, hch0, hde⟩ := hent (parentTarget new).2 e'
              (by rw [chGet_mk_some]; exact he')
            cases qn with
            | mk qm qoc =>
              cases qoc with
              | none => simp [chGet, FNode.children] at hch0
              | some qcs =>
                rw [chGet_mk_some] at hch0
                rw [nsWalk_normP] at hqn
                have := hdest qm qcs e0 hqn
                  (dget_mem qcs (parentTarget new).2 e0 hch0)
                rw [hde] at this
                exact this
          refine ⟨?_, rfl⟩
          constructor
          · intro cs' hcs'
            injection hcs' with hcs'
            subst hcs'
            have h4 : dirC c = 1 := by simp [dirC, hcdir]
            have h5 := treeAll_local um (some ucs) hallt ucs rfl
            cases hbe : dget ucs (parentTarget new).2 with
            | none =>
              have h3 := ndirs_dset_absent ucs (parentTarget new).2 c hbe
              simp only []
              omega
            | some e =>
              have h3 := ndirs_dset_present ucs (parentTarget new).2 e c hbe
              have h6 : dirC e = 0 := by simp [dirC, hdest2 e hbe]
              simp only []
              omega
          · intro cs' hcs' e he
            injection hcs' with hcs'
            subst hcs'
            rcases mem_dset ucs (parentTarget new).2 c e he with he1 | he1
            · subst he1
              exact hInvc
            · exact treeAll_child um ucs e.1 e.2 hallt (by simpa using he1)
  · -- the moved node is not a directory: no link-count updates
    have hcdir : isDirN c = false := by
      cases hiso : isDirN c
      · rfl
      · exact absurd ((modeWF_isDirN c hWFc).mp hiso) hdir
    -- determinism of the re-fetch
    rw [hw1] at hw3
    injection hw3 with hw3
    injection hw3 with hw3a hw3b
    subst hw3a
    injection hw3b with hw3b
    subst hw3b
    rw [hgc] at hgm
    injection hgm with hgm
    subst hgm
    -- the pop step keeps the invariant
    have hInvT2 : LinkInv t2 := by
      have := treeAll_nsUpd linkInv_HL _ t1 t2 _ hp1 hInv ?_
      · exact this.1
      · intro t t' hw hft hallt
        rw [hw1] at hw
        injection hw with hw
        subst hw
        rw [popL_mk] at hft
        injection hft with hft
        subst hft
        refine ⟨?_, rfl⟩
        constructor
        · intro cs' hcs'
          injection hcs' with hcs'
          subst hcs'
          have h3 := ndirs_drm pocs (parentTarget old).2 c hgc
          have h4 : dirC c = 0 := by simp [dirC, hcdir]
          have h5 := treeAll_local pom (some pocs) hallt pocs rfl
          omega
        · intro cs' hcs' e he
          injection hcs' with hcs'
          subst hcs'
          exact treeAll_child pom pocs e.1 e.2 hallt
            (by simpa using mem_drm pocs (parentTarget old).2 e he)
    -- unfold the insert step
    obtain ⟨bt, bt', hwbt, hins, hwbt'⟩ := nsUpd_ok_elim _ t2 t3 _ hp2
    cases bt with
    | mk bm obc =>
      cases obc with
      | none => cases hins
      | some bcs =>
        rw [insL_mk] at hins
        injection hins with hins
        subst hins
        -- frame condition of the pop step
        have hfc : ∀ n n',
            nsWalk t1 (normP (splitSlash (parentTarget old).1)) = .ok n →
            popL (parentTarget old).2 n = .ok n' →
            isDirN n' = isDirN n ∧
            ∀ k e', chGet n' k = some e' → chGet n k = some e' := by
          intro n n' hwn hfn
          rw [hw1] at hwn
          injection hwn with hwn
          subst hwn
          rw [popL_mk] at hfn
          injection hfn with hfn
          subst hfn
          refine ⟨rfl, ?_⟩
          intro k e' he2
          rw [chGet_mk_some] at he2 ⊢
          by_cases hk : k = (parentTarget old).2
          · subst hk
            rw [dget_drm_self_none pocs (parentTarget old).2 hnodpar] at he2
            cases he2
          · rw [dget_drm_ne pocs (parentTarget old).2 k hk] at he2
            exact he2
        -- entries at the destination parent in t2 are not directories
        have hdest2 : ∀ e', dget bcs (parentTarget new).2 = some e' →
            isDirN e' = false := by
          intro e' he'
          obtain ⟨qn, hqn, hdq, hent⟩ := nsUpd_frame_back
            (normP (splitSlash (parentTarget new).1))
            (normP (splitSlash (parentTarget old).1)) t1 t2 _ hPn hQn hp1
            hfc (.mk bm (some bcs)) hwbt
          obtain ⟨e0, hch0, hde⟩ := hent (parentTarget new).2 e'
            (by rw [chGet_mk_some]; exact he')
          cases qn with
          | mk qm qoc =>
            cases qoc with
            | none => simp [chGet, FNode.children] at hch0
            | some qcs =>
              rw [chGet_mk_some] at hch0
              rw [nsWalk_normP] at hqn
              have := hdest qm qcs e0 hqn
                (dget_mem qcs (parentTarget new).2 e0 hch0)
              rw [hde] at this
              exact this
        -- the insert step keeps the invariant
        have := treeAll_nsUpd linkInv_HL _ t2 t3 _ hp2 hInvT2 ?_
        · exact this.1
        · intro t t' hw hft hallt
          rw [hwbt] at hw
          injection hw with hw
          subst hw
          rw [insL_mk] at hft
          injection hft with hft
          subst hft
          refine ⟨?_, rfl⟩
          constructor
          · intro cs' hcs'
            injection hcs' with hcs'
            subst hcs'
            have h4 : dirC c = 0 := by simp [dirC, hcdir]
            have h5 := treeAll_local bm (some bcs) hallt bcs rfl
            cases hbe : dget bcs (parentTarget new).2 with
            | none =>
              have h3 := ndirs_dset_absent bcs (parentTarget new).2 c hbe
              omega
            | some e =>
              have h3 := ndirs_dset_present bcs (parentTarget new).2 e c hbe
              have h6 : dirC e = 0 := by simp [dirC, hdest2 e hbe]
              omega
          · intro cs' hcs' e he
            injection hcs' with hcs'
            subst hcs'
            rcases mem_dset bcs (parentTarget new).2 c e he with he1 | he1
            · subst he1
              exact hInvc
            · exact treeAll_child bm bcs e.1 e.2 hallt (by simpa using he1)

/-- `LinkInv` at a concrete directory fixes its link count. -/
theorem linkInv_root_nlink (n : FNode) (m : Meta)
    (cs : List (Name × FNode)) (h : LinkInv n)
    (he : n = .mk m (some cs)) : m.st_nlink = 2 + (ndirs cs : Int) := by
  subst he
  exact treeAll_local m (some cs) h cs rfl

/-- C7 (amended): a directory's link count equals 2 plus its number of
direct child directories.  This holds of the initial state (the root
starts at 2), and is preserved by `mkdir` into a fresh name, by every
successful `rmdir`, and by the namespace phase of a successful `rename`
whose destination name does not currently denote a directory.  (It is
not preserved by a rename that overwrites a directory entry at the
destination: see the counterexample.) -/
theorem link_count_invariant_amended :
    (∀ now, LinkInv (initFS now).root) ∧
    (∀ (s : FS) (path : Name) (mode now : Nat) (pm : Meta)
      (pcs : List (Name × FNode)),
      nsWalk s.root (splitSlash (parentTarget path).1) =
        .ok (.mk pm (some pcs)) →
      dget pcs (parentTarget path).2 = none →
      LinkInv s.root →
      LinkInv (Memory.mkdir s path mode now).2.root) ∧
    (∀ (s : FS) (path : Name) (s' : FS),
      LinkInv s.root →
      Memory.rmdir s path = (.ok (), s') →
      LinkInv s'.root) ∧
    (∀ (root : FNode) (old new : Name) (t3 : FNode),
      LinkInv root → ModeWF root → KeysUniq root →
      renameNs root old new = (.ok (), t3) →
      (∀ qm qcs e,
        nsWalk root (splitSlash (parentTarget new).1) =
          .ok (.mk qm (some qcs)) →
        ((parentTarget new).2, e) ∈ qcs → isDirN e = false) →
      LinkInv t3) :=
  ⟨initFS_linkInv,
   fun s path mode now pm pcs hpar hfresh hInv =>
     mkdir_preserves_linkInv s path mode now pm pcs hpar hfresh hInv,
   fun s path s' hInv h => rmdir_preserves_linkInv s path s' hInv h,
   fun root old new t3 hInv hWF hU hns hdest =>
     renameNs_preserves_linkInv root old new t3 hInv hWF hU hns hdest⟩

/-- Witness for C7: `mkdir "/a"` on the freshly initialised state keeps
the invariant (the hypotheses hold of that concrete state). -/
theorem link_count_invariant_amended_witness :
    LinkInv (Memory.mkdir (initFS 0) ['/', 'a'] 493 0).2.root :=
  link_count_invariant_amended.2.1 (initFS 0) ['/', 'a'] 493 0
    { st_mode := S_IFDIR ||| 0o755, st_nlink := 2, st_size := none,
      st_ctime := 0, st_mtime := 0, st_atime := 0,
      st_uid := none, st_gid := none, attrs := none }
    [] rfl rfl (link_count_invariant_amended.1 0)

/-- Counterexample for C7 as claimed: after `mkdir "/a"`, `mkdir "/b"`,
the rename of `/a` over the existing directory `/b` succeeds, yet the
resulting root violates the link-count invariant (it keeps link count 4
with a single child directory): the destination parent is incremented
for the moved directory while the overwritten directory's contribution
disappears without a decrement. -/
theorem link_count_rename_overwrite_counterexample :
    (Memory.rename
      (Memory.mkdir (Memory.mkdir (initFS 0) ['/', 'a'] 493 0).2
        ['/', 'b'] 493 0).2 ['/', 'a'] ['/', 'b']).1 = Except.ok () ∧
    ¬ LinkInv (Memory.rename
      (Memory.mkdir (Memory.mkdir (initFS 0) ['/', 'a'] 493 0).2
        ['/', 'b'] 493 0).2 ['/', 'a'] ['/', 'b']).2.root := by
  refine ⟨rfl, ?_⟩
  intro h
  have h2 := linkInv_root_nlink _ _ _ h rfl
  exact absurd h2 (by decide)
